import Mathlib

/-!
Shallow embedding of the redis-rs RESP parser (src/parser.rs) and proofs of
the specification claims about it.

The source parser is written with the combine parser-combinator library.
Each combinator rule (`line`, `status`, `int`, `data`, `bulk`, `error`,
`value`) is translated to an explicit recursive-descent function over a byte
list that returns one of three outcomes: success with a consumed-byte count,
a recoverable need-more-input suspension, or a malformed-input failure.
-/

namespace Redis

/-- Decoded protocol value, mirroring the `Value` enum of the repository. -/
inductive Value where
  | Nil : Value
  | Int : ℤ → Value
  | Data : List UInt8 → Value
  | Bulk : List Value → Value
  | Status : String → Value
  | Okay : Value

/-- The classified error kinds recognized by the error rule, as named in
`src/parser.rs`. -/
inductive ErrorKind where
  | ResponseError
  | ExecAbortError
  | BusyLoadingError
  | NoScriptError
  | Moved
  | Ask
  | TryAgain
  | ClusterDown
  | CrossSlot
  | MasterDown
deriving DecidableEq

/-- Modelled from the spec: the error value type (the repository's `types.rs`
is not among the sources, only `parser.rs` is).  Per spec sections 3, 4.3, 6
and 7 a protocol error carries a classified kind together with a fixed human
description and an optional detail string taken verbatim from the frame; an
unrecognized code token is handed to the external extension-error constructor
together with exactly that code token and the optional detail; I/O failures
from the byte source are propagated as a distinct I/O-style error. -/
inductive RedisError where
  | known (kind : ErrorKind) (desc : String) (detail : Option String)
  | extension (code : String) (detail : Option String)
  | io (msg : String)
deriving DecidableEq

/-- Modelled from the spec: the external extension-error constructor of
section 6, invoked with the exact unrecognized code token and the optional
detail. -/
def make_extension_error (code : String) (detail : Option String) : RedisError :=
  RedisError.extension code detail

/-- Result of a fallible decode, mirroring `RedisResult` specialized as the
parser uses it. -/
inductive RResult (α : Type) where
  | ok (a : α)
  | err (e : RedisError)

/-- Outcome of running one grammar rule on a byte list: success with the
number of consumed bytes, a need-more-input suspension, or a malformed-input
failure. -/
inductive PRes (α : Type) where
  | ok (a : α) (n : Nat)
  | needMore
  | fail (msg : String)
deriving DecidableEq

/-- Index of the first occurrence of the two-byte CRLF terminator, if the
buffer contains one (`take_until_bytes(b"\r\n")` in the source). -/
def findCRLF : List UInt8 → Option Nat
  | [] => none
  | [_] => none
  | a :: b :: rest =>
    if a = 13 ∧ b = 10 then some 0
    else (findCRLF (b :: rest)).map (· + 1)

/-- Validity of the second byte of a two-byte UTF-8 sequence. -/
def utf8Valid2 (b2 : UInt8) : Prop :=
  0x80 ≤ b2 ∧ b2 < 0xC0

instance (b2 : UInt8) : Decidable (utf8Valid2 b2) :=
  inferInstanceAs (Decidable (0x80 ≤ b2 ∧ b2 < 0xC0))

/-- Validity of the trailing bytes of a three-byte UTF-8 sequence, with the
lead-dependent window of the second byte (overlongs and surrogates
rejected), as Rust's validator checks them. -/
def utf8Valid3 (b b2 b3 : UInt8) : Prop :=
  (if b = 0xE0 then 0xA0 ≤ b2 ∧ b2 < 0xC0
   else if b = 0xED then 0x80 ≤ b2 ∧ b2 < 0xA0
   else 0x80 ≤ b2 ∧ b2 < 0xC0) ∧ (0x80 ≤ b3 ∧ b3 < 0xC0)

instance (b b2 b3 : UInt8) : Decidable (utf8Valid3 b b2 b3) :=
  inferInstanceAs (Decidable ((if b = 0xE0 then 0xA0 ≤ b2 ∧ b2 < 0xC0
    else if b = 0xED then 0x80 ≤ b2 ∧ b2 < 0xA0
    else 0x80 ≤ b2 ∧ b2 < 0xC0) ∧ (0x80 ≤ b3 ∧ b3 < 0xC0)))

/-- Validity of the trailing bytes of a four-byte UTF-8 sequence, with the
lead-dependent window of the second byte (overlongs and values above
U+10FFFF rejected), as Rust's validator checks them. -/
def utf8Valid4 (b b2 b3 b4 : UInt8) : Prop :=
  (if b = 0xF0 then 0x90 ≤ b2 ∧ b2 < 0xC0
   else if b = 0xF4 then 0x80 ≤ b2 ∧ b2 < 0x90
   else 0x80 ≤ b2 ∧ b2 < 0xC0) ∧ (0x80 ≤ b3 ∧ b3 < 0xC0) ∧ (0x80 ≤ b4 ∧ b4 < 0xC0)

instance (b b2 b3 b4 : UInt8) : Decidable (utf8Valid4 b b2 b3 b4) :=
  inferInstanceAs (Decidable ((if b = 0xF0 then 0x90 ≤ b2 ∧ b2 < 0xC0
    else if b = 0xF4 then 0x80 ≤ b2 ∧ b2 < 0x90
    else 0x80 ≤ b2 ∧ b2 < 0xC0) ∧ (0x80 ≤ b3 ∧ b3 < 0xC0) ∧ (0x80 ≤ b4 ∧ b4 < 0xC0)))

/-- Code point of a two-byte UTF-8 sequence. -/
def utf8Cp2 (b b2 : UInt8) : Nat :=
  (b.toNat - 0xC0) * 64 + (b2.toNat - 0x80)

/-- Code point of a three-byte UTF-8 sequence. -/
def utf8Cp3 (b b2 b3 : UInt8) : Nat :=
  (b.toNat - 0xE0) * 4096 + (b2.toNat - 0x80) * 64 + (b3.toNat - 0x80)

/-- Code point of a four-byte UTF-8 sequence. -/
def utf8Cp4 (b b2 b3 b4 : UInt8) : Nat :=
  (b.toNat - 0xF0) * 262144 + (b2.toNat - 0x80) * 4096 +
    (b3.toNat - 0x80) * 64 + (b4.toNat - 0x80)

/-- UTF-8 validation and decoding, as `str::from_utf8` performs it: rejects
overlong forms, surrogates, code points above U+10FFFF and truncated
sequences.  The fuel argument only bounds the recursion; every sequence
step consumes at least one byte, so fuel at least the list length is
enough. -/
def utf8DecodeF : Nat → List UInt8 → Option (List Char)
  | _, [] => some []
  | 0, _ :: _ => none
  | fuel + 1, b :: rest =>
    if b < 0x80 then
      (utf8DecodeF fuel rest).map (Char.ofNat b.toNat :: ·)
    else if b < 0xC2 then none
    else if b < 0xE0 then
      match rest with
      | b2 :: rest2 =>
        if utf8Valid2 b2 then (utf8DecodeF fuel rest2).map (Char.ofNat (utf8Cp2 b b2) :: ·)
        else none
      | _ => none
    else if b < 0xF0 then
      match rest with
      | b2 :: b3 :: rest3 =>
        if utf8Valid3 b b2 b3 then
          (utf8DecodeF fuel rest3).map (Char.ofNat (utf8Cp3 b b2 b3) :: ·)
        else none
      | _ => none
    else if b < 0xF5 then
      match rest with
      | b2 :: b3 :: b4 :: rest4 =>
        if utf8Valid4 b b2 b3 b4 then
          (utf8DecodeF fuel rest4).map (Char.ofNat (utf8Cp4 b b2 b3 b4) :: ·)
        else none
      | _ => none
    else none

/-- UTF-8 validation and decoding of a byte list. -/
def utf8Decode? (l : List UInt8) : Option (List Char) :=
  utf8DecodeF l.length l

/-- The `line` rule: scan for the CRLF terminator, then decode the bytes
strictly before it as UTF-8 text; the terminator is consumed but excluded. -/
def line (input : List UInt8) : PRes String :=
  match findCRLF input with
  | none => PRes.needMore
  | some i =>
    match utf8Decode? (input.take i) with
    | none => PRes.fail "invalid utf-8"
    | some cs => PRes.ok (String.mk cs) (i + 2)

/-- Rust `char::is_whitespace`: the Unicode White_Space property. -/
def isRustWhitespace (c : Char) : Bool :=
  let n := c.toNat
  n == 9 || n == 10 || n == 11 || n == 12 || n == 13 || n == 32 ||
  n == 0x85 || n == 0xA0 || n == 0x1680 ||
  (0x2000 ≤ n && n ≤ 0x200A) ||
  n == 0x2028 || n == 0x2029 || n == 0x202F || n == 0x205F || n == 0x3000

/-- Rust `str::trim`: drop whitespace characters from both ends. -/
def trimChars (cs : List Char) : List Char :=
  ((cs.dropWhile isRustWhitespace).reverse.dropWhile isRustWhitespace).reverse

/-- Decimal digit value of a character, if it is an ASCII digit. -/
def digit? (c : Char) : Option Nat :=
  if '0' ≤ c ∧ c ≤ '9' then some (c.toNat - 48) else none

/-- Left fold over decimal digits, failing at the first non-digit. -/
def parseDigitsAux : List Char → Nat → Option Nat
  | [], acc => some acc
  | c :: cs, acc =>
    match digit? c with
    | none => none
    | some d => parseDigitsAux cs (acc * 10 + d)

/-- Parse a nonempty all-digit character list as a natural number. -/
def parseDigits : List Char → Option Nat
  | [] => none
  | c :: cs => parseDigitsAux (c :: cs) 0

/-- Rust `str::parse::<i64>`: optional sign, then decimal digits, with the
result required to fit in the signed 64-bit range. -/
def parseI64 (cs : List Char) : Option ℤ :=
  match cs with
  | [] => none
  | c :: rest =>
    if c = '+' then
      (parseDigits rest).bind fun m =>
        if m ≤ 2 ^ 63 - 1 then some (m : ℤ) else none
    else if c = '-' then
      (parseDigits rest).bind fun m =>
        if m ≤ 2 ^ 63 then some (-(m : ℤ)) else none
    else
      (parseDigits (c :: rest)).bind fun m =>
        if m ≤ 2 ^ 63 - 1 then some (m : ℤ) else none

/-- The `int` rule: the `line` rule, then trim and parse as a signed 64-bit
integer; a parse failure is the fixed garbage message. -/
def int (input : List UInt8) : PRes ℤ :=
  match line input with
  | PRes.needMore => PRes.needMore
  | PRes.fail m => PRes.fail m
  | PRes.ok s n =>
    match parseI64 (trimChars s.data) with
    | none => PRes.fail "Expected integer, got garbage"
    | some v => PRes.ok v n

/-- The `status` rule: the `line` rule, with the literal text OK collapsed to
the `Okay` sentinel. -/
def status (input : List UInt8) : PRes Value :=
  match line input with
  | PRes.needMore => PRes.needMore
  | PRes.fail m => PRes.fail m
  | PRes.ok s n =>
    PRes.ok (if s = "OK" then Value.Okay else Value.Status s) n

/-- The `data` rule: the `int` rule for the declared length; negative yields
`Nil`, otherwise exactly that many verbatim payload bytes followed by a
mandatory CRLF that is consumed but not included. -/
def data (input : List UInt8) : PRes Value :=
  match int input with
  | PRes.needMore => PRes.needMore
  | PRes.fail m => PRes.fail m
  | PRes.ok size n =>
    if size < 0 then PRes.ok Value.Nil n
    else
      if (input.drop n).length < size.toNat then PRes.needMore
      else
        match (input.drop n).drop size.toNat with
        | [] => PRes.needMore
        | [b] => if b = 13 then PRes.needMore else PRes.fail "expected crlf"
        | b1 :: b2 :: _ =>
          if b1 = 13 ∧ b2 = 10 then
            PRes.ok (Value.Data ((input.drop n).take size.toNat)) (n + size.toNat + 2)
          else PRes.fail "expected crlf"

/-- Split a line at the first space, as `splitn(2, ' ')` does: the leading
code token, and the remaining detail when a space is present. -/
def splitSp : List Char → List Char × Option (List Char)
  | [] => ([], none)
  | c :: cs =>
    if c = ' ' then ([], some cs)
    else
      let p := splitSp cs
      (c :: p.1, p.2)

/-- The fixed case-sensitive table of recognized error code tokens. -/
def errorKindOfCode (code : String) : Option ErrorKind :=
  if code = "ERR" then some ErrorKind.ResponseError
  else if code = "EXECABORT" then some ErrorKind.ExecAbortError
  else if code = "LOADING" then some ErrorKind.BusyLoadingError
  else if code = "NOSCRIPT" then some ErrorKind.NoScriptError
  else if code = "MOVED" then some ErrorKind.Moved
  else if code = "ASK" then some ErrorKind.Ask
  else if code = "TRYAGAIN" then some ErrorKind.TryAgain
  else if code = "CLUSTERDOWN" then some ErrorKind.ClusterDown
  else if code = "CROSSSLOT" then some ErrorKind.CrossSlot
  else if code = "MASTERDOWN" then some ErrorKind.MasterDown
  else none

/-- The `error` rule: the `line` rule, then classification of the code token
against the fixed table, with unrecognized codes handed to the extension
error constructor. -/
def error (input : List UInt8) : PRes RedisError :=
  match line input with
  | PRes.needMore => PRes.needMore
  | PRes.fail m => PRes.fail m
  | PRes.ok s n =>
    let p := splitSp s.data
    let code := String.mk p.1
    let detail := p.2.map String.mk
    match errorKindOfCode code with
    | some kind =>
      PRes.ok (RedisError.known kind "An error was signalled by the server" detail) n
    | none => PRes.ok (make_extension_error code detail) n

mutual

/-- The dispatch rule `value`: read one tag byte and select the rule by exact
match among the five tags; the aggregate branch applies the `int` rule for
the declared count, yields `Nil` on a negative count, and otherwise decodes
exactly that many nested values through `bulkElems`. -/
def value : List UInt8 → PRes (RResult Value)
  | [] => PRes.needMore
  | t :: rest =>
    if t = 43 then
      match status rest with
      | PRes.needMore => PRes.needMore
      | PRes.fail m => PRes.fail m
      | PRes.ok v n => PRes.ok (RResult.ok v) (n + 1)
    else if t = 58 then
      match int rest with
      | PRes.needMore => PRes.needMore
      | PRes.fail m => PRes.fail m
      | PRes.ok v n => PRes.ok (RResult.ok (Value.Int v)) (n + 1)
    else if t = 36 then
      match data rest with
      | PRes.needMore => PRes.needMore
      | PRes.fail m => PRes.fail m
      | PRes.ok v n => PRes.ok (RResult.ok v) (n + 1)
    else if t = 42 then
      match int rest with
      | PRes.needMore => PRes.needMore
      | PRes.fail m => PRes.fail m
      | PRes.ok count n =>
        if count < 0 then PRes.ok (RResult.ok Value.Nil) (n + 1)
        else
          match bulkElems count.toNat (rest.drop n) with
          | PRes.needMore => PRes.needMore
          | PRes.fail m => PRes.fail m
          | PRes.ok (RResult.err e) n2 => PRes.ok (RResult.err e) (n + 1 + n2)
          | PRes.ok (RResult.ok vs) n2 =>
            PRes.ok (RResult.ok (Value.Bulk vs)) (n + 1 + n2)
    else if t = 45 then
      match error rest with
      | PRes.needMore => PRes.needMore
      | PRes.fail m => PRes.fail m
      | PRes.ok e n => PRes.ok (RResult.err e) (n + 1)
    else PRes.fail "unrecognized tag byte"
termination_by input => (input.length, 0)
decreasing_by
  apply Prod.Lex.left
  have h1 : (List.drop n rest).length ≤ rest.length := by
    simp [List.length_drop]
  simp only [List.length_cons]
  omega

/-- The element loop of the aggregate rule, modelling
`count_min_max(length, length, value())` collecting into `ResultExtend`.
The collection is pull-driven: an element is parsed only when the `Extend`
consumer pulls it, and `ResultExtend::extend` stops pulling at the first
element whose decode yields a protocol-error result, so later declared
elements are never attempted.  The combinator counts pulled elements
(including the error element) against its minimum: when the error element
is the last declared one the count reaches the minimum and the carried
error becomes the aggregate's successful parse output; when declared
elements remain after it, the count falls short and the combinator fails
the whole parse with its expected-more-elements message. -/
def bulkElems : Nat → List UInt8 → PRes (RResult (List Value))
  | 0, _ => PRes.ok (RResult.ok []) 0
  | k + 1, input =>
    match value input with
    | PRes.needMore => PRes.needMore
    | PRes.fail m => PRes.fail m
    | PRes.ok (RResult.err e) n =>
      if k = 0 then PRes.ok (RResult.err e) n
      else PRes.fail ("expected " ++ toString k ++ " more elements")
    | PRes.ok (RResult.ok v) n =>
      match bulkElems k (input.drop n) with
      | PRes.needMore => PRes.needMore
      | PRes.fail m => PRes.fail m
      | PRes.ok (RResult.err e) n2 => PRes.ok (RResult.err e) (n + n2)
      | PRes.ok (RResult.ok vs) n2 => PRes.ok (RResult.ok (v :: vs)) (n + n2)
termination_by k input => (input.length, k + 1)
decreasing_by
  · apply Prod.Lex.right
    omega
  · have h1 : (List.drop n input).length ≤ input.length := by
      simp [List.length_drop]
    rcases Nat.lt_or_ge (List.drop n input).length input.length with h | h
    · exact Prod.Lex.left _ _ h
    · have h2 : (List.drop n input).length = input.length := le_antisymm h1 h
      rw [h2]
      apply Prod.Lex.right
      omega

end

/-- The push-mode codec `ValueCodec`: its combine partial-parse continuation
state is modelled observably as the bytes of the in-progress frame that the
codec has already consumed from earlier buffers and copied into its state
(spec section 5: remembered bytes are copied into the continuation state). -/
structure ValueCodec where
  state : List UInt8

/-- Result of one push-mode `decode` call: the decode outcome (a frame, no
frame yet, or a failure), the number of bytes consumed from the supplied
buffer, and the codec carried to the next call. -/
structure DecodeStep where
  output : RResult (Option Value)
  consumed : Nat
  next : ValueCodec

/-- The decode output corresponding to a completed parse result: a decoded
frame for a success, the carried protocol error for an error frame. -/
def outMap : RResult Value → RResult (Option Value)
  | RResult.ok v => RResult.ok (some v)
  | RResult.err e => RResult.err e

/-- Push-mode `ValueCodec::decode`: run the `value` grammar over the
carried-over bytes followed by the supplied buffer.  A suspension consumes
the whole buffer into the continuation state and reports no frame; a
completed parse reports the frame (or the protocol error carried by an
error frame) plus the bytes of the buffer that belong to the frame, and
resets the state for the next frame; a grammar failure is reported as a
parse error without consuming the buffer. -/
def ValueCodec.decode (c : ValueCodec) (buffer : List UInt8) : DecodeStep :=
  match value (c.state ++ buffer) with
  | PRes.needMore => ⟨RResult.ok none, buffer.length, ⟨c.state ++ buffer⟩⟩
  | PRes.fail m =>
    ⟨RResult.err (RedisError.known ErrorKind.ResponseError "parse error" (some m)),
      0, ⟨c.state ++ buffer⟩⟩
  | PRes.ok r n =>
    ⟨(match r with
      | RResult.ok v => RResult.ok (some v)
      | RResult.err e => RResult.err e), n - c.state.length, ⟨[]⟩⟩

/-- The decode outcome observed after two successive push-mode calls: the
first call's frame if it produced one, otherwise the second call's
outcome. -/
def finalOut (d1 d2 : DecodeStep) : RResult (Option Value) :=
  match d1.output with
  | RResult.ok (some v) => RResult.ok (some v)
  | RResult.ok none => d2.output
  | RResult.err e => RResult.err e

/-- One-shot `parse_redis_value` over an in-memory buffer: drive the `value`
grammar with the whole buffer; a suspension means the reader hit end of
stream mid-frame, surfaced as an I/O-style unexpected-end failure; a grammar
failure is surfaced as a parse error. -/
def parse_redis_value (bytes : List UInt8) : RResult Value :=
  match value bytes with
  | PRes.needMore => RResult.err (RedisError.io "unexpected end of file")
  | PRes.fail m =>
    RResult.err (RedisError.known ErrorKind.ResponseError "parse error" (some m))
  | PRes.ok r _ => r

/-- Decimal digit characters of a natural number, most significant first,
computed with explicit fuel so the definition is structural. -/
def natDigitsAux : Nat → Nat → List Char
  | 0, _ => []
  | fuel + 1, n =>
    if n < 10 then [Char.ofNat (48 + n)]
    else natDigitsAux fuel (n / 10) ++ [Char.ofNat (48 + n % 10)]

/-- Decimal digit characters of a natural number, most significant first. -/
def natDigits (n : Nat) : List Char :=
  natDigitsAux (n + 1) n

/-- Canonical decimal notation of an integer, as Rust formats an `i64`. -/
def decimalChars (n : ℤ) : List Char :=
  if n < 0 then '-' :: natDigits n.natAbs else natDigits n.toNat

/-- Bytes of a list of ASCII characters. -/
def asciiOf (cs : List Char) : List UInt8 :=
  cs.map (fun c => UInt8.ofNat c.toNat)

/-- Canonical encoding of a `Data` frame: the bulk tag, the decimal payload
length, CRLF, the payload verbatim, CRLF. -/
def encodeDataFrame (b : List UInt8) : List UInt8 :=
  36 :: (asciiOf (natDigits b.length) ++ [13, 10] ++ b ++ [13, 10])

/-- Canonical encoding of an `Int` frame: the integer tag, the decimal
notation, CRLF. -/
def encodeIntFrame (n : ℤ) : List UInt8 :=
  58 :: (asciiOf (decimalChars n) ++ [13, 10])

/-- Stated from the spec for comparison with the source's `error` rule
(section 4.3): split the line on the first space into a code token and an
optional detail, match the code token case-sensitively against the fixed
ten-entry table to obtain the kind with the fixed description and the detail
verbatim, and hand any other code token to the extension-error constructor
with exactly that code token and the optional detail. -/
def specErrorClassify (s : String) : RedisError :=
  let p := splitSp s.data
  let code := String.mk p.1
  let detail := p.2.map String.mk
  match errorKindOfCode code with
  | some kind =>
    RedisError.known kind "An error was signalled by the server" detail
  | none => make_extension_error code detail

/-- A well-formed encoded frame: the dispatch grammar accepts it with some
result, consuming exactly the whole byte sequence. -/
def WellFormedFrame (f : List UInt8) : Prop :=
  ∃ r : RResult Value, value f = PRes.ok r f.length

/-- Extension stability of the dispatch rule at one input: a reached success
consumes at most the input and survives appending more bytes, and so does a
reached failure. -/
def ValueMonoAt (a : List UInt8) : Prop :=
  (∀ r n, value a = PRes.ok r n → n ≤ a.length ∧ ∀ b, value (a ++ b) = PRes.ok r n) ∧
  (∀ m, value a = PRes.fail m → ∀ b, value (a ++ b) = PRes.fail m)

/-- Extension stability of the aggregate element loop at one count and
input. -/
def BulkMonoAt (k : Nat) (a : List UInt8) : Prop :=
  (∀ r n, bulkElems k a = PRes.ok r n →
    n ≤ a.length ∧ ∀ b, bulkElems k (a ++ b) = PRes.ok r n) ∧
  (∀ m, bulkElems k a = PRes.fail m → ∀ b, bulkElems k (a ++ b) = PRes.fail m)

end Redis

namespace Redis

/-! Equation lemmas for the two well-founded recursive functions, in the
form used by all later proofs. -/

theorem value_nil : value [] = PRes.needMore := by
  rw [value.eq_def]

theorem value_plus (rest : List UInt8) :
    value (43 :: rest) =
      match status rest with
      | PRes.needMore => PRes.needMore
      | PRes.fail m => PRes.fail m
      | PRes.ok v n => PRes.ok (RResult.ok v) (n + 1) := by
  rw [value.eq_def]; rfl

theorem value_colon (rest : List UInt8) :
    value (58 :: rest) =
      match int rest with
      | PRes.needMore => PRes.needMore
      | PRes.fail m => PRes.fail m
      | PRes.ok v n => PRes.ok (RResult.ok (Value.Int v)) (n + 1) := by
  rw [value.eq_def]; rfl

theorem value_dollar (rest : List UInt8) :
    value (36 :: rest) =
      match data rest with
      | PRes.needMore => PRes.needMore
      | PRes.fail m => PRes.fail m
      | PRes.ok v n => PRes.ok (RResult.ok v) (n + 1) := by
  rw [value.eq_def]; rfl

theorem value_star (rest : List UInt8) :
    value (42 :: rest) =
      match int rest with
      | PRes.needMore => PRes.needMore
      | PRes.fail m => PRes.fail m
      | PRes.ok c n =>
        if c < 0 then PRes.ok (RResult.ok Value.Nil) (n + 1)
        else
          match bulkElems c.toNat (rest.drop n) with
          | PRes.needMore => PRes.needMore
          | PRes.fail m => PRes.fail m
          | PRes.ok (RResult.err e) n2 => PRes.ok (RResult.err e) (n + 1 + n2)
          | PRes.ok (RResult.ok vs) n2 =>
            PRes.ok (RResult.ok (Value.Bulk vs)) (n + 1 + n2) := by
  rw [value.eq_def]; rfl

theorem value_minus (rest : List UInt8) :
    value (45 :: rest) =
      match error rest with
      | PRes.needMore => PRes.needMore
      | PRes.fail m => PRes.fail m
      | PRes.ok e n => PRes.ok (RResult.err e) (n + 1) := by
  rw [value.eq_def]; rfl

theorem value_other (t : UInt8) (rest : List UInt8) (h43 : t ≠ 43) (h58 : t ≠ 58)
    (h36 : t ≠ 36) (h42 : t ≠ 42) (h45 : t ≠ 45) :
    value (t :: rest) = PRes.fail "unrecognized tag byte" := by
  rw [value.eq_def]
  simp only [if_neg h43, if_neg h58, if_neg h36, if_neg h42, if_neg h45]

theorem bulkElems_zero (input : List UInt8) :
    bulkElems 0 input = PRes.ok (RResult.ok []) 0 := by
  rw [bulkElems.eq_def]

theorem bulkElems_succ (k : Nat) (input : List UInt8) :
    bulkElems (k + 1) input =
      match value input with
      | PRes.needMore => PRes.needMore
      | PRes.fail m => PRes.fail m
      | PRes.ok (RResult.err e) n =>
        if k = 0 then PRes.ok (RResult.err e) n
        else PRes.fail ("expected " ++ toString k ++ " more elements")
      | PRes.ok (RResult.ok v) n =>
        match bulkElems k (input.drop n) with
        | PRes.needMore => PRes.needMore
        | PRes.fail m => PRes.fail m
        | PRes.ok (RResult.err e) n2 => PRes.ok (RResult.err e) (n + n2)
        | PRes.ok (RResult.ok vs) n2 => PRes.ok (RResult.ok (v :: vs)) (n + n2) := by
  rw [bulkElems.eq_def]

/-! Properties of the CRLF scan. -/

theorem findCRLF_bound : ∀ (a : List UInt8) (i : Nat),
    findCRLF a = some i → i + 2 ≤ a.length := by
  intro a
  induction a using findCRLF.induct with
  | case1 => intro i h; cases h
  | case2 x => intro i h; cases h
  | case3 x y rest hcond =>
    intro i h
    rw [findCRLF, if_pos hcond] at h
    cases h
    simp
  | case4 x y rest hcond ih =>
    intro i h
    rw [findCRLF, if_neg hcond] at h
    simp only [Option.map_eq_some'] at h
    obtain ⟨j, hj, rfl⟩ := h
    have := ih j hj
    simp only [List.length_cons] at this ⊢
    omega

theorem findCRLF_append : ∀ (a b : List UInt8) (i : Nat),
    findCRLF a = some i → findCRLF (a ++ b) = some i := by
  intro a
  induction a using findCRLF.induct with
  | case1 => intro b i h; cases h
  | case2 x => intro b i h; cases h
  | case3 x y rest hcond =>
    intro b i h
    rw [findCRLF, if_pos hcond] at h
    cases h
    rw [List.cons_append, List.cons_append, findCRLF, if_pos hcond]
  | case4 x y rest hcond ih =>
    intro b i h
    rw [findCRLF, if_neg hcond] at h
    simp only [Option.map_eq_some'] at h
    obtain ⟨j, hj, rfl⟩ := h
    rw [List.cons_append, List.cons_append, findCRLF, if_neg hcond]
    have h2 : findCRLF (y :: (rest ++ b)) = some j := ih b j hj
    rw [h2]
    rfl

theorem findCRLF_none_append_crlf : ∀ (a b : List UInt8),
    findCRLF a = none → findCRLF (a ++ 13 :: 10 :: b) = some a.length := by
  intro a
  induction a using findCRLF.induct with
  | case1 =>
    intro b _
    rw [List.nil_append, findCRLF, if_pos ⟨rfl, rfl⟩]
    rfl
  | case2 x =>
    intro b _
    rw [List.cons_append, List.nil_append, findCRLF, if_neg (by simp), findCRLF,
      if_pos ⟨rfl, rfl⟩]
    rfl
  | case3 x y rest hcond =>
    intro b h
    rw [findCRLF, if_pos hcond] at h
    cases h
  | case4 x y rest hcond ih =>
    intro b h
    rw [findCRLF, if_neg hcond] at h
    simp only [Option.map_eq_none'] at h
    rw [List.cons_append, List.cons_append, findCRLF, if_neg hcond]
    have h2 : findCRLF (y :: (rest ++ 13 :: 10 :: b)) = some (y :: rest).length := ih b h
    rw [h2]
    simp

theorem findCRLF_none_of_no13 : ∀ (a : List UInt8), (∀ x ∈ a, x ≠ 13) →
    findCRLF a = none := by
  intro a
  induction a using findCRLF.induct with
  | case1 => intro _; rfl
  | case2 x => intro _; rfl
  | case3 x y rest hcond =>
    intro h
    exact absurd hcond.1 (h x (by simp))
  | case4 x y rest hcond ih =>
    intro h
    rw [findCRLF, if_neg hcond]
    rw [ih (by intro z hz; exact h z (List.mem_cons_of_mem x hz))]
    rfl

/-! Extension stability (appending more input does not change a result
already reached) and consumed-byte bounds, for each non-recursive rule. -/

theorem line_mono (a b : List UInt8) :
    (∀ s n, line a = PRes.ok s n → n ≤ a.length ∧ line (a ++ b) = PRes.ok s n) ∧
    (∀ m, line a = PRes.fail m → line (a ++ b) = PRes.fail m) := by
  constructor
  · intro s n h
    rw [line] at h
    cases hf : findCRLF a with
    | none => rw [hf] at h; cases h
    | some i =>
      rw [hf] at h
      dsimp only at h
      have hb := findCRLF_bound a i hf
      have hap := findCRLF_append a b i hf
      rw [line, hap]
      dsimp only
      rw [List.take_append_of_le_length (by omega)]
      cases hu : utf8Decode? (a.take i) with
      | none => rw [hu] at h; cases h
      | some cs =>
        rw [hu] at h
        cases h
        exact ⟨by omega, rfl⟩
  · intro m h
    rw [line] at h
    cases hf : findCRLF a with
    | none => rw [hf] at h; cases h
    | some i =>
      rw [hf] at h
      dsimp only at h
      have hb := findCRLF_bound a i hf
      have hap := findCRLF_append a b i hf
      rw [line, hap]
      dsimp only
      rw [List.take_append_of_le_length (by omega)]
      cases hu : utf8Decode? (a.take i) with
      | none => rw [hu] at h; cases h; rfl
      | some cs => rw [hu] at h; cases h

theorem status_mono (a b : List UInt8) :
    (∀ v n, status a = PRes.ok v n → n ≤ a.length ∧ status (a ++ b) = PRes.ok v n) ∧
    (∀ m, status a = PRes.fail m → status (a ++ b) = PRes.fail m) := by
  constructor
  · intro v n h
    rw [status] at h
    cases hl : line a with
    | needMore => rw [hl] at h; cases h
    | fail m0 => rw [hl] at h; cases h
    | ok s n0 =>
      rw [hl] at h
      dsimp only at h
      injection h with h1 h2
      subst h1
      subst h2
      have := (line_mono a b).1 s n0 hl
      rw [status, this.2]
      exact ⟨this.1, rfl⟩
  · intro m h
    rw [status] at h
    cases hl : line a with
    | needMore => rw [hl] at h; cases h
    | fail m0 =>
      rw [hl] at h
      dsimp only at h
      injection h with h1
      subst h1
      rw [status, (line_mono a b).2 m0 hl]
    | ok s n0 => rw [hl] at h; cases h

theorem int_mono (a b : List UInt8) :
    (∀ v n, int a = PRes.ok v n → n ≤ a.length ∧ int (a ++ b) = PRes.ok v n) ∧
    (∀ m, int a = PRes.fail m → int (a ++ b) = PRes.fail m) := by
  constructor
  · intro v n h
    rw [int] at h
    cases hl : line a with
    | needMore => rw [hl] at h; cases h
    | fail m0 => rw [hl] at h; cases h
    | ok s n0 =>
      rw [hl] at h
      dsimp only at h
      have := (line_mono a b).1 s n0 hl
      rw [int, this.2]
      dsimp only
      cases hp : parseI64 (trimChars s.data) with
      | none => rw [hp] at h; cases h
      | some w =>
        rw [hp] at h
        dsimp only at h
        injection h with h1 h2
        subst h1
        subst h2
        exact ⟨this.1, rfl⟩
  · intro m h
    rw [int] at h
    cases hl : line a with
    | needMore => rw [hl] at h; cases h
    | fail m0 =>
      rw [hl] at h
      dsimp only at h
      injection h with h1
      subst h1
      rw [int, (line_mono a b).2 m0 hl]
    | ok s n0 =>
      rw [hl] at h
      dsimp only at h
      have := (line_mono a b).1 s n0 hl
      rw [int, this.2]
      dsimp only
      cases hp : parseI64 (trimChars s.data) with
      | none =>
        rw [hp] at h
        dsimp only at h
        injection h with h1
        subst h1
        rfl
      | some w => rw [hp] at h; cases h

theorem error_eq (a : List UInt8) :
    error a =
      match line a with
      | PRes.needMore => PRes.needMore
      | PRes.fail m => PRes.fail m
      | PRes.ok s n => PRes.ok (specErrorClassify s) n := by
  rw [error]
  cases line a with
  | needMore => rfl
  | fail m => rfl
  | ok s n =>
    dsimp only [specErrorClassify]
    cases hk : errorKindOfCode (String.mk (splitSp s.data).1) with
    | none => rfl
    | some kind => rfl

theorem error_mono (a b : List UInt8) :
    (∀ e n, error a = PRes.ok e n → n ≤ a.length ∧ error (a ++ b) = PRes.ok e n) ∧
    (∀ m, error a = PRes.fail m → error (a ++ b) = PRes.fail m) := by
  constructor
  · intro e n h
    rw [error_eq] at h
    cases hl : line a with
    | needMore => rw [hl] at h; cases h
    | fail m0 => rw [hl] at h; cases h
    | ok s n0 =>
      rw [hl] at h
      dsimp only at h
      injection h with h1 h2
      subst h1
      subst h2
      have := (line_mono a b).1 s n0 hl
      rw [error_eq, this.2]
      exact ⟨this.1, rfl⟩
  · intro m h
    rw [error_eq] at h
    cases hl : line a with
    | needMore => rw [hl] at h; cases h
    | fail m0 =>
      rw [hl] at h
      dsimp only at h
      injection h with h1
      subst h1
      rw [error_eq, (line_mono a b).2 m0 hl]
    | ok s n0 => rw [hl] at h; cases h

theorem data_mono (a b : List UInt8) :
    (∀ v n, data a = PRes.ok v n → n ≤ a.length ∧ data (a ++ b) = PRes.ok v n) ∧
    (∀ m, data a = PRes.fail m → data (a ++ b) = PRes.fail m) := by
  constructor
  · intro v n h
    rw [data] at h
    cases hint : int a with
    | needMore => rw [hint] at h; cases h
    | fail m0 => rw [hint] at h; cases h
    | ok size n0 =>
      rw [hint] at h
      dsimp only at h
      have him := (int_mono a b).1 size n0 hint
      have hn0 : n0 ≤ a.length := him.1
      rw [data, him.2]
      dsimp only
      by_cases hneg : size < 0
      · rw [if_pos hneg] at h ⊢
        cases h
        exact ⟨hn0, rfl⟩
      · rw [if_neg hneg] at h ⊢
        have hdropapp : (a ++ b).drop n0 = a.drop n0 ++ b :=
          List.drop_append_of_le_length hn0
        rw [hdropapp]
        by_cases hlen : (a.drop n0).length < size.toNat
        · rw [if_pos hlen] at h; cases h
        · rw [if_neg hlen] at h
          have hlen2 : ¬ (a.drop n0 ++ b).length < size.toNat := by
            simp only [List.length_append]
            omega
          rw [if_neg hlen2]
          have hdropapp2 : (a.drop n0 ++ b).drop size.toNat = (a.drop n0).drop size.toNat ++ b :=
            List.drop_append_of_le_length (by omega)
          rw [hdropapp2]
          cases hrest : (a.drop n0).drop size.toNat with
          | nil => rw [hrest] at h; cases h
          | cons b1 t1 =>
            rw [hrest] at h
            cases t1 with
            | nil =>
              dsimp only at h
              by_cases hb1 : b1 = 13
              · rw [if_pos hb1] at h; cases h
              · rw [if_neg hb1] at h; cases h
            | cons b2 t2 =>
              dsimp only at h
              by_cases hcr : b1 = 13 ∧ b2 = 10
              · rw [if_pos hcr] at h
                cases h
                rw [List.cons_append, List.cons_append]
                dsimp only
                rw [if_pos hcr, List.take_append_of_le_length (by omega)]
                have hlendrop : ((a.drop n0).drop size.toNat).length = t2.length + 2 := by
                  rw [hrest]; simp
                simp only [List.length_drop] at hlendrop
                exact ⟨by omega, rfl⟩
              · rw [if_neg hcr] at h; cases h
  · intro m h
    rw [data] at h
    cases hint : int a with
    | needMore => rw [hint] at h; cases h
    | fail m0 =>
      rw [hint] at h
      injection h with h1
      subst h1
      rw [data, (int_mono a b).2 m0 hint]
    | ok size n0 =>
      rw [hint] at h
      dsimp only at h
      have him := (int_mono a b).1 size n0 hint
      have hn0 : n0 ≤ a.length := him.1
      rw [data, him.2]
      dsimp only
      by_cases hneg : size < 0
      · rw [if_pos hneg] at h; cases h
      · rw [if_neg hneg] at h ⊢
        have hdropapp : (a ++ b).drop n0 = a.drop n0 ++ b :=
          List.drop_append_of_le_length hn0
        rw [hdropapp]
        by_cases hlen : (a.drop n0).length < size.toNat
        · rw [if_pos hlen] at h; cases h
        · rw [if_neg hlen] at h
          have hlen2 : ¬ (a.drop n0 ++ b).length < size.toNat := by
            simp only [List.length_append]
            omega
          rw [if_neg hlen2]
          have hdropapp2 : (a.drop n0 ++ b).drop size.toNat = (a.drop n0).drop size.toNat ++ b :=
            List.drop_append_of_le_length (by omega)
          rw [hdropapp2]
          cases hrest : (a.drop n0).drop size.toNat with
          | nil => rw [hrest] at h; cases h
          | cons b1 t1 =>
            rw [hrest] at h
            cases t1 with
            | nil =>
              dsimp only at h
              by_cases hb1 : b1 = 13
              · rw [if_pos hb1] at h; cases h
              · rw [if_neg hb1] at h
                cases h
                cases b with
                | nil =>
                  rw [List.append_nil]
                  try dsimp only
                  rw [if_neg hb1]
                | cons c cs =>
                  rw [List.cons_append, List.nil_append]
                  try dsimp only
                  rw [if_neg (by rintro ⟨h13, h10⟩; exact hb1 h13)]
            | cons b2 t2 =>
              dsimp only at h
              by_cases hcr : b1 = 13 ∧ b2 = 10
              · rw [if_pos hcr] at h; cases h
              · rw [if_neg hcr] at h
                cases h
                rw [List.cons_append, List.cons_append]
                dsimp only
                rw [if_neg hcr]

/-! Extension stability of the recursive dispatch and element loop, by
strong induction on the input length. -/

theorem mono_master : ∀ L : Nat,
    (∀ a : List UInt8, a.length ≤ L → ValueMonoAt a) ∧
    (∀ (k : Nat) (a : List UInt8), a.length ≤ L → BulkMonoAt k a) := by
  intro L
  induction L with
  | zero =>
    constructor
    · intro a ha
      have hnil : a = [] := List.eq_nil_of_length_eq_zero (Nat.le_zero.mp ha)
      subst hnil
      constructor
      · intro r n h; rw [value_nil] at h; cases h
      · intro m h; rw [value_nil] at h; cases h
    · intro k a ha
      have hnil : a = [] := List.eq_nil_of_length_eq_zero (Nat.le_zero.mp ha)
      subst hnil
      cases k with
      | zero =>
        constructor
        · intro r n h
          rw [bulkElems_zero] at h
          injection h with h1 h2
          subst h1
          subst h2
          exact ⟨Nat.zero_le _, fun b => by rw [bulkElems_zero]⟩
        · intro m h; rw [bulkElems_zero] at h; cases h
      | succ k =>
        constructor
        · intro r n h
          rw [bulkElems_succ, value_nil] at h
          cases h
        · intro m h
          rw [bulkElems_succ, value_nil] at h
          cases h
  | succ L IH =>
    have valAll : ∀ a : List UInt8, a.length ≤ L + 1 → ValueMonoAt a := by
      intro a ha
      cases a with
      | nil =>
        constructor
        · intro r n h; rw [value_nil] at h; cases h
        · intro m h; rw [value_nil] at h; cases h
      | cons t rest =>
        have hrest : rest.length ≤ L := by
          simp only [List.length_cons] at ha
          omega
        by_cases h43 : t = 43
        · subst h43
          constructor
          · intro r n h
            rw [value_plus] at h
            cases hs : status rest with
            | needMore => rw [hs] at h; cases h
            | fail m0 => rw [hs] at h; cases h
            | ok v n0 =>
              rw [hs] at h
              dsimp only at h
              injection h with h1 h2
              subst h1
              subst h2
              refine ⟨?_, ?_⟩
              · have := ((status_mono rest []).1 v n0 hs).1
                simp only [List.length_cons]
                omega
              · intro b
                rw [List.cons_append, value_plus, ((status_mono rest b).1 v n0 hs).2]
          · intro m h
            rw [value_plus] at h
            cases hs : status rest with
            | needMore => rw [hs] at h; cases h
            | ok v n0 => rw [hs] at h; cases h
            | fail m0 =>
              rw [hs] at h
              dsimp only at h
              injection h with h1
              subst h1
              intro b
              rw [List.cons_append, value_plus, (status_mono rest b).2 m0 hs]
        · by_cases h58 : t = 58
          · subst h58
            constructor
            · intro r n h
              rw [value_colon] at h
              cases hs : int rest with
              | needMore => rw [hs] at h; cases h
              | fail m0 => rw [hs] at h; cases h
              | ok v n0 =>
                rw [hs] at h
                dsimp only at h
                injection h with h1 h2
                subst h1
                subst h2
                refine ⟨?_, ?_⟩
                · have := ((int_mono rest []).1 v n0 hs).1
                  simp only [List.length_cons]
                  omega
                · intro b
                  rw [List.cons_append, value_colon, ((int_mono rest b).1 v n0 hs).2]
            · intro m h
              rw [value_colon] at h
              cases hs : int rest with
              | needMore => rw [hs] at h; cases h
              | ok v n0 => rw [hs] at h; cases h
              | fail m0 =>
                rw [hs] at h
                dsimp only at h
                injection h with h1
                subst h1
                intro b
                rw [List.cons_append, value_colon, (int_mono rest b).2 m0 hs]
          · by_cases h36 : t = 36
            · subst h36
              constructor
              · intro r n h
                rw [value_dollar] at h
                cases hs : data rest with
                | needMore => rw [hs] at h; cases h
                | fail m0 => rw [hs] at h; cases h
                | ok v n0 =>
                  rw [hs] at h
                  dsimp only at h
                  injection h with h1 h2
                  subst h1
                  subst h2
                  refine ⟨?_, ?_⟩
                  · have := ((data_mono rest []).1 v n0 hs).1
                    simp only [List.length_cons]
                    omega
                  · intro b
                    rw [List.cons_append, value_dollar, ((data_mono rest b).1 v n0 hs).2]
              · intro m h
                rw [value_dollar] at h
                cases hs : data rest with
                | needMore => rw [hs] at h; cases h
                | ok v n0 => rw [hs] at h; cases h
                | fail m0 =>
                  rw [hs] at h
                  dsimp only at h
                  injection h with h1
                  subst h1
                  intro b
                  rw [List.cons_append, value_dollar, (data_mono rest b).2 m0 hs]
            · by_cases h42 : t = 42
              · subst h42
                constructor
                · intro r n h
                  rw [value_star] at h
                  cases hi : int rest with
                  | needMore => rw [hi] at h; cases h
                  | fail m0 => rw [hi] at h; cases h
                  | ok c n0 =>
                    rw [hi] at h
                    dsimp only at h
                    have hn0 : n0 ≤ rest.length := ((int_mono rest []).1 c n0 hi).1
                    by_cases hc : c < 0
                    · rw [if_pos hc] at h
                      injection h with h1 h2
                      subst h1
                      subst h2
                      refine ⟨by simp only [List.length_cons]; omega, ?_⟩
                      intro b
                      rw [List.cons_append, value_star, ((int_mono rest b).1 c n0 hi).2]
                      dsimp only
                      rw [if_pos hc]
                    · rw [if_neg hc] at h
                      have hdlen : (rest.drop n0).length ≤ L := by
                        simp only [List.length_drop]
                        omega
                      have ihb := (IH.2 c.toNat (rest.drop n0) hdlen)
                      cases hb : bulkElems c.toNat (rest.drop n0) with
                      | needMore => rw [hb] at h; cases h
                      | fail m0 => rw [hb] at h; cases h
                      | ok rr n2 =>
                        have hbm := ihb.1 rr n2 hb
                        have hn2 : n2 ≤ (rest.drop n0).length := hbm.1
                        simp only [List.length_drop] at hn2
                        rw [hb] at h
                        cases rr with
                        | err e =>
                          dsimp only at h
                          injection h with h1 h2
                          subst h1
                          subst h2
                          refine ⟨by simp only [List.length_cons]; omega, ?_⟩
                          intro b
                          rw [List.cons_append, value_star, ((int_mono rest b).1 c n0 hi).2]
                          dsimp only
                          rw [if_neg hc, List.drop_append_of_le_length hn0, (hbm.2 b)]
                        | ok vs =>
                          dsimp only at h
                          injection h with h1 h2
                          subst h1
                          subst h2
                          refine ⟨by simp only [List.length_cons]; omega, ?_⟩
                          intro b
                          rw [List.cons_append, value_star, ((int_mono rest b).1 c n0 hi).2]
                          dsimp only
                          rw [if_neg hc, List.drop_append_of_le_length hn0, (hbm.2 b)]
                · intro m h
                  rw [value_star] at h
                  cases hi : int rest with
                  | needMore => rw [hi] at h; cases h
                  | fail m0 =>
                    rw [hi] at h
                    dsimp only at h
                    injection h with h1
                    subst h1
                    intro b
                    rw [List.cons_append, value_star, (int_mono rest b).2 m0 hi]
                  | ok c n0 =>
                    rw [hi] at h
                    dsimp only at h
                    have hn0 : n0 ≤ rest.length := ((int_mono rest []).1 c n0 hi).1
                    by_cases hc : c < 0
                    · rw [if_pos hc] at h; cases h
                    · rw [if_neg hc] at h
                      have hdlen : (rest.drop n0).length ≤ L := by
                        simp only [List.length_drop]
                        omega
                      have ihb := (IH.2 c.toNat (rest.drop n0) hdlen)
                      cases hb : bulkElems c.toNat (rest.drop n0) with
                      | needMore => rw [hb] at h; cases h
                      | ok rr n2 =>
                        rw [hb] at h
                        cases rr with
                        | err e => cases h
                        | ok vs => cases h
                      | fail m0 =>
                        rw [hb] at h
                        dsimp only at h
                        injection h with h1
                        subst h1
                        intro b
                        rw [List.cons_append, value_star, ((int_mono rest b).1 c n0 hi).2]
                        dsimp only
                        rw [if_neg hc, List.drop_append_of_le_length hn0, (ihb.2 m0 hb b)]
              · by_cases h45 : t = 45
                · subst h45
                  constructor
                  · intro r n h
                    rw [value_minus] at h
                    cases hs : error rest with
                    | needMore => rw [hs] at h; cases h
                    | fail m0 => rw [hs] at h; cases h
                    | ok e n0 =>
                      rw [hs] at h
                      dsimp only at h
                      injection h with h1 h2
                      subst h1
                      subst h2
                      refine ⟨?_, ?_⟩
                      · have := ((error_mono rest []).1 e n0 hs).1
                        simp only [List.length_cons]
                        omega
                      · intro b
                        rw [List.cons_append, value_minus, ((error_mono rest b).1 e n0 hs).2]
                  · intro m h
                    rw [value_minus] at h
                    cases hs : error rest with
                    | needMore => rw [hs] at h; cases h
                    | ok e n0 => rw [hs] at h; cases h
                    | fail m0 =>
                      rw [hs] at h
                      dsimp only at h
                      injection h with h1
                      subst h1
                      intro b
                      rw [List.cons_append, value_minus, (error_mono rest b).2 m0 hs]
                · constructor
                  · intro r n h
                    rw [value_other t rest h43 h58 h36 h42 h45] at h
                    cases h
                  · intro m h
                    rw [value_other t rest h43 h58 h36 h42 h45] at h
                    injection h with h1
                    subst h1
                    intro b
                    rw [List.cons_append, value_other t (rest ++ b) h43 h58 h36 h42 h45]
    have bulkAll : ∀ (k : Nat) (a : List UInt8), a.length ≤ L + 1 → BulkMonoAt k a := by
      intro k
      induction k with
      | zero =>
        intro a ha
        constructor
        · intro r n h
          rw [bulkElems_zero] at h
          injection h with h1 h2
          subst h1
          subst h2
          exact ⟨Nat.zero_le _, fun b => by rw [bulkElems_zero]⟩
        · intro m h; rw [bulkElems_zero] at h; cases h
      | succ k ihk =>
        intro a ha
        constructor
        · intro r n h
          rw [bulkElems_succ] at h
          cases hv : value a with
          | needMore => rw [hv] at h; cases h
          | fail m0 => rw [hv] at h; cases h
          | ok rv n1 =>
            rw [hv] at h
            have hvm := (valAll a ha).1 rv n1 hv
            have hn1 : n1 ≤ a.length := hvm.1
            cases rv with
            | err e =>
              dsimp only at h
              by_cases hk : k = 0
              · rw [if_pos hk] at h
                injection h with h1 h2
                subst h1
                subst h2
                refine ⟨hn1, ?_⟩
                intro b
                rw [bulkElems_succ, hvm.2 b]
                dsimp only
                rw [if_pos hk]
              · rw [if_neg hk] at h
                cases h
            | ok v =>
              dsimp only at h
              have hdlen : (a.drop n1).length ≤ L + 1 := by
                simp only [List.length_drop]
                omega
              have ihd := ihk (a.drop n1) hdlen
              cases hb : bulkElems k (a.drop n1) with
              | needMore => rw [hb] at h; cases h
              | fail m0 => rw [hb] at h; cases h
              | ok rr n2 =>
                rw [hb] at h
                have hbm := ihd.1 rr n2 hb
                have hn2 : n2 ≤ (a.drop n1).length := hbm.1
                simp only [List.length_drop] at hn2
                cases rr with
                | err e =>
                  dsimp only at h
                  injection h with h1 h2
                  subst h1
                  subst h2
                  refine ⟨by omega, ?_⟩
                  intro b
                  rw [bulkElems_succ, hvm.2 b]
                  dsimp only
                  rw [List.drop_append_of_le_length hn1, hbm.2 b]
                | ok vs =>
                  dsimp only at h
                  injection h with h1 h2
                  subst h1
                  subst h2
                  refine ⟨by omega, ?_⟩
                  intro b
                  rw [bulkElems_succ, hvm.2 b]
                  dsimp only
                  rw [List.drop_append_of_le_length hn1, hbm.2 b]
        · intro m h
          rw [bulkElems_succ] at h
          cases hv : value a with
          | needMore => rw [hv] at h; cases h
          | fail m0 =>
            rw [hv] at h
            dsimp only at h
            injection h with h1
            subst h1
            intro b
            rw [bulkElems_succ, (valAll a ha).2 m0 hv b]
          | ok rv n1 =>
            rw [hv] at h
            have hvm := (valAll a ha).1 rv n1 hv
            have hn1 : n1 ≤ a.length := hvm.1
            cases rv with
            | err e =>
              dsimp only at h
              by_cases hk : k = 0
              · rw [if_pos hk] at h
                cases h
              · rw [if_neg hk] at h
                injection h with h1
                subst h1
                intro b
                rw [bulkElems_succ, hvm.2 b]
                dsimp only
                rw [if_neg hk]
            | ok v =>
              dsimp only at h
              have hdlen : (a.drop n1).length ≤ L + 1 := by
                simp only [List.length_drop]
                omega
              have ihd := ihk (a.drop n1) hdlen
              cases hb : bulkElems k (a.drop n1) with
              | needMore => rw [hb] at h; cases h
              | ok rr n2 =>
                rw [hb] at h
                cases rr with
                | err e => cases h
                | ok vs => cases h
              | fail m0 =>
                rw [hb] at h
                dsimp only at h
                injection h with h1
                subst h1
                intro b
                rw [bulkElems_succ, hvm.2 b]
                dsimp only
                rw [List.drop_append_of_le_length hn1, ihd.2 m0 hb b]
    exact ⟨valAll, bulkAll⟩

/-- Extension stability of the dispatch rule. -/
theorem value_mono (a : List UInt8) : ValueMonoAt a :=
  (mono_master a.length).1 a le_rfl

/-- Extension stability of the aggregate element loop. -/
theorem bulkElems_mono (k : Nat) (a : List UInt8) : BulkMonoAt k a :=
  (mono_master a.length).2 k a le_rfl

/-- Every proper prefix of a well-formed frame suspends with need-more. -/
theorem value_take_needMore (f : List UInt8) (r : RResult Value)
    (hwf : value f = PRes.ok r f.length) (i : Nat) (hi : i < f.length) :
    value (f.take i) = PRes.needMore := by
  cases hv : value (f.take i) with
  | needMore => rfl
  | fail m =>
    have h2 := (value_mono (f.take i)).2 m hv (f.drop i)
    rw [List.take_append_drop] at h2
    rw [h2] at hwf
    cases hwf
  | ok r2 n2 =>
    have hm := (value_mono (f.take i)).1 r2 n2 hv
    have h2 := hm.2 (f.drop i)
    rw [List.take_append_drop] at h2
    rw [h2] at hwf
    injection hwf with h1 h3
    have hb : n2 ≤ (f.take i).length := hm.1
    rw [List.length_take] at hb
    omega

/-! Unfolding lemmas for the push-mode codec. -/

theorem decode_needMore (st buf : List UInt8) (h : value (st ++ buf) = PRes.needMore) :
    ValueCodec.decode ⟨st⟩ buf = ⟨RResult.ok none, buf.length, ⟨st ++ buf⟩⟩ := by
  rw [ValueCodec.decode]
  dsimp only
  rw [h]

theorem decode_ok (st buf : List UInt8) (r : RResult Value) (n : Nat)
    (h : value (st ++ buf) = PRes.ok r n) :
    ValueCodec.decode ⟨st⟩ buf = ⟨outMap r, n - st.length, ⟨[]⟩⟩ := by
  rw [ValueCodec.decode]
  dsimp only
  rw [h]
  cases r with
  | ok v => rfl
  | err e => rfl

/-- Splitting a well-formed frame anywhere and pushing the two halves through
two successive codec calls gives the same final outcome and the same total
consumed count as pushing the whole frame through one call. -/
theorem codec_split_resume (f : List UInt8) (r : RResult Value)
    (hwf : value f = PRes.ok r f.length) (i : Nat) (hi : i ≤ f.length) :
    finalOut (ValueCodec.decode ⟨[]⟩ (f.take i))
        ((ValueCodec.decode ⟨[]⟩ (f.take i)).next.decode (f.drop i)) =
      (ValueCodec.decode ⟨[]⟩ f).output ∧
    (ValueCodec.decode ⟨[]⟩ (f.take i)).consumed +
        ((ValueCodec.decode ⟨[]⟩ (f.take i)).next.decode (f.drop i)).consumed =
      (ValueCodec.decode ⟨[]⟩ f).consumed := by
  have hone := decode_ok [] f r f.length (by rw [List.nil_append]; exact hwf)
  by_cases hif : i = f.length
  · have ht : f.take i = f := by rw [hif, List.take_length]
    have hd : f.drop i = [] := by rw [hif, List.drop_length]
    rw [ht, hd, hone]
    dsimp only
    have hd2 := decode_needMore [] [] (by rw [List.append_nil]; exact value_nil)
    rw [hd2]
    constructor
    · cases r with
      | ok v => rfl
      | err e => rfl
    · rfl
  · have hpre := value_take_needMore f r hwf i (lt_of_le_of_ne hi hif)
    have hd1 : ValueCodec.decode ⟨[]⟩ (f.take i) =
        ⟨RResult.ok none, (f.take i).length, ⟨f.take i⟩⟩ := by
      have := decode_needMore [] (f.take i) (by rw [List.nil_append]; exact hpre)
      rw [List.nil_append] at this
      exact this
    rw [hd1, hone]
    dsimp only
    have hd2 := decode_ok (f.take i) (f.drop i) r f.length
      (by rw [List.take_append_drop]; exact hwf)
    rw [hd2]
    constructor
    · cases r with
      | ok v => rfl
      | err e => rfl
    · dsimp only [finalOut]
      simp only [List.length_take, List.length_nil, Nat.sub_zero]
      rw [Nat.min_eq_left hi]
      omega

/-! Properties of the aggregate element loop used by claim C2. -/

/-- An element that decodes to a protocol error stops the pull-driven
collection; when it is the last declared element the pulled count reaches
the declared minimum and the carried error becomes the loop's result. -/
theorem bulkElems_err_last (input : List UInt8) (e : RedisError) (n : Nat)
    (h : value input = PRes.ok (RResult.err e) n) :
    bulkElems 1 input = PRes.ok (RResult.err e) n := by
  rw [bulkElems_succ, h]
  dsimp only
  rw [if_pos rfl]

/-- An element that decodes to a protocol error stops the pull-driven
collection; with declared elements remaining after it the pulled count falls
short of the declared minimum, so the combinator fails the whole parse
instead of propagating the error. -/
theorem bulkElems_err_notlast (input : List UInt8) (e : RedisError) (n : Nat)
    (k : Nat) (hk : k ≠ 0) (h : value input = PRes.ok (RResult.err e) n) :
    bulkElems (k + 1) input =
      PRes.fail ("expected " ++ toString k ++ " more elements") := by
  rw [bulkElems_succ, h]
  dsimp only
  rw [if_neg hk]

/-- Successful elements are collected head-first, in declared order. -/
theorem bulkElems_ok_cons (input : List UInt8) (v : Value) (m : Nat) (k : Nat)
    (vs : List Value) (n2 : Nat)
    (hv : value input = PRes.ok (RResult.ok v) m)
    (hb : bulkElems k (input.drop m) = PRes.ok (RResult.ok vs) n2) :
    bulkElems (k + 1) input = PRes.ok (RResult.ok (v :: vs)) (m + n2) := by
  rw [bulkElems_succ, hv]
  dsimp only
  rw [hb]

/-- A successful element loop returns exactly the declared number of
elements. -/
theorem bulkElems_length : ∀ (k : Nat) (input : List UInt8) (vs : List Value) (n : Nat),
    bulkElems k input = PRes.ok (RResult.ok vs) n → vs.length = k := by
  intro k
  induction k with
  | zero =>
    intro input vs n h
    rw [bulkElems_zero] at h
    injection h with h1 h2
    injection h1 with h1
    subst h1
    rfl
  | succ k ih =>
    intro input vs n h
    rw [bulkElems_succ] at h
    cases hv : value input with
    | needMore => rw [hv] at h; cases h
    | fail m0 => rw [hv] at h; cases h
    | ok rv n1 =>
      rw [hv] at h
      cases rv with
      | err e =>
        dsimp only at h
        by_cases hk : k = 0
        · rw [if_pos hk] at h
          injection h with h1 h2
          cases h1
        · rw [if_neg hk] at h
          cases h
      | ok v =>
        dsimp only at h
        cases hb : bulkElems k (input.drop n1) with
        | needMore => rw [hb] at h; cases h
        | fail m0 => rw [hb] at h; cases h
        | ok rr n2 =>
          rw [hb] at h
          cases rr with
          | err e =>
            dsimp only at h
            injection h with h1 h2
            cases h1
          | ok vs2 =>
            dsimp only at h
            injection h with h1 h2
            injection h1 with h1
            subst h1
            simp only [List.length_cons, ih (input.drop n1) vs2 n2 hb]
  
/-- After any number of successful elements, an error element sitting at the
last declared position makes the whole loop yield exactly that error, the
pulled count having reached the declared minimum. -/
theorem bulkElems_prefix_err_last : ∀ (j : Nat) (input : List UInt8) (vs : List Value) (n : Nat),
    bulkElems j input = PRes.ok (RResult.ok vs) n →
    ∀ (e : RedisError) (m : Nat), value (input.drop n) = PRes.ok (RResult.err e) m →
    bulkElems (j + 1) input = PRes.ok (RResult.err e) (n + m) := by
  intro j
  induction j with
  | zero =>
    intro input vs n hok e m hv
    rw [bulkElems_zero] at hok
    injection hok with h1 h2
    subst h2
    rw [List.drop_zero] at hv
    simp only [Nat.zero_add]
    exact bulkElems_err_last input e m hv
  | succ j ih =>
    intro input vs n hok e m hv
    rw [bulkElems_succ] at hok
    cases hv1 : value input with
    | needMore => rw [hv1] at hok; cases hok
    | fail m0 => rw [hv1] at hok; cases hok
    | ok rv n1 =>
      rw [hv1] at hok
      cases rv with
      | err e2 =>
        dsimp only at hok
        by_cases hj : j = 0
        · rw [if_pos hj] at hok
          injection hok with h1 h2
          cases h1
        · rw [if_neg hj] at hok
          cases hok
      | ok v =>
        dsimp only at hok
        cases hb : bulkElems j (input.drop n1) with
        | needMore => rw [hb] at hok; cases hok
        | fail m0 => rw [hb] at hok; cases hok
        | ok rr n2 =>
          rw [hb] at hok
          cases rr with
          | err e2 =>
            dsimp only at hok
            injection hok with h1 h2
            cases h1
          | ok vs2 =>
            dsimp only at hok
            injection hok with h1 h2
            injection h1 with h1
            subst h1
            subst h2
            have hv2 : value ((input.drop n1).drop n2) = PRes.ok (RResult.err e) m := by
              rw [List.drop_drop]
              exact hv
            have hstep := ih (input.drop n1) vs2 n2 hb e m hv2
            rw [bulkElems_succ, hv1]
            dsimp only
            rw [hstep]
            dsimp only
            have harith2 : n1 + (n2 + m) = n1 + n2 + m := by omega
            rw [harith2]

/-- After any number of successful elements, an error element with at least
one more declared element after it leaves the pulled count short of the
declared minimum: the whole loop fails the parse with the combinator's
expected-more-elements message, and the error is not propagated. -/
theorem bulkElems_prefix_err_notlast : ∀ (j : Nat) (input : List UInt8) (vs : List Value) (n : Nat),
    bulkElems j input = PRes.ok (RResult.ok vs) n →
    ∀ (e : RedisError) (m : Nat), value (input.drop n) = PRes.ok (RResult.err e) m →
    ∀ (k : Nat), bulkElems (j + (k + 2)) input =
      PRes.fail ("expected " ++ toString (k + 1) ++ " more elements") := by
  intro j
  induction j with
  | zero =>
    intro input vs n hok e m hv k
    rw [bulkElems_zero] at hok
    injection hok with h1 h2
    subst h2
    rw [List.drop_zero] at hv
    simp only [Nat.zero_add]
    exact bulkElems_err_notlast input e m (k + 1) (by omega) hv
  | succ j ih =>
    intro input vs n hok e m hv k
    rw [bulkElems_succ] at hok
    cases hv1 : value input with
    | needMore => rw [hv1] at hok; cases hok
    | fail m0 => rw [hv1] at hok; cases hok
    | ok rv n1 =>
      rw [hv1] at hok
      cases rv with
      | err e2 =>
        dsimp only at hok
        by_cases hj : j = 0
        · rw [if_pos hj] at hok
          injection hok with h1 h2
          cases h1
        · rw [if_neg hj] at hok
          cases hok
      | ok v =>
        dsimp only at hok
        cases hb : bulkElems j (input.drop n1) with
        | needMore => rw [hb] at hok; cases hok
        | fail m0 => rw [hb] at hok; cases hok
        | ok rr n2 =>
          rw [hb] at hok
          cases rr with
          | err e2 =>
            dsimp only at hok
            injection hok with h1 h2
            cases h1
          | ok vs2 =>
            dsimp only at hok
            injection hok with h1 h2
            injection h1 with h1
            subst h1
            subst h2
            have hv2 : value ((input.drop n1).drop n2) = PRes.ok (RResult.err e) m := by
              rw [List.drop_drop]
              exact hv
            have hstep := ih (input.drop n1) vs2 n2 hb e m hv2 k
            have harith : j + 1 + (k + 2) = (j + (k + 2)) + 1 := by omega
            rw [harith, bulkElems_succ, hv1]
            dsimp only
            rw [hstep]

/-! The one-shot entry point, claim C8. -/

theorem parse_redis_value_of_ok (bytes : List UInt8) (v : Value) (n : Nat)
    (h : value bytes = PRes.ok (RResult.ok v) n) :
    parse_redis_value bytes = RResult.ok v := by
  rw [parse_redis_value, h]

theorem parse_redis_value_of_err (bytes : List UInt8) (e : RedisError) (n : Nat)
    (h : value bytes = PRes.ok (RResult.err e) n) :
    parse_redis_value bytes = RResult.err e := by
  rw [parse_redis_value, h]

theorem parse_redis_value_needMore (bytes : List UInt8)
    (h : value bytes = PRes.needMore) :
    parse_redis_value bytes = RResult.err (RedisError.io "unexpected end of file") := by
  rw [parse_redis_value, h]

theorem parse_redis_value_take (f : List UInt8) (r : RResult Value)
    (hwf : value f = PRes.ok r f.length) (i : Nat) (hi : i < f.length) :
    parse_redis_value (f.take i) = RResult.err (RedisError.io "unexpected end of file") :=
  parse_redis_value_needMore (f.take i) (value_take_needMore f r hwf i hi)

/-! Decimal notation round-trip machinery, for claims C4 and C5. -/

theorem UInt8_toNat_ofNat_small (m : Nat) (h : m < 256) : (UInt8.ofNat m).toNat = m :=
  UInt8.toNat_ofNat_of_lt h

theorem ofNat_lt_0x80 (m : Nat) (h : m < 128) : UInt8.ofNat m < (0x80 : UInt8) := by
  show (UInt8.ofNat m).toNat < (0x80 : UInt8).toNat
  rw [UInt8_toNat_ofNat_small m (by omega)]
  show m < 128
  exact h

theorem parseDigitsAux_append (xs : List Char) (c : Char) : ∀ acc : Nat,
    parseDigitsAux (xs ++ [c]) acc =
      (parseDigitsAux xs acc).bind fun v =>
        (digit? c).map fun d => v * 10 + d := by
  induction xs with
  | nil =>
    intro acc
    rw [List.nil_append, parseDigitsAux, parseDigitsAux]
    cases digit? c with
    | none => rfl
    | some d => rfl
  | cons x xs ih =>
    intro acc
    rw [List.cons_append, parseDigitsAux, parseDigitsAux]
    cases digit? x with
    | none => rfl
    | some d => exact ih (acc * 10 + d)

theorem digit?_ofNat (n : Nat) (h : n < 10) :
    digit? (Char.ofNat (48 + n)) = some n := by
  interval_cases n <;> decide

theorem natDigitsAux_parse : ∀ (fuel n : Nat), n < fuel → ∀ acc : Nat,
    parseDigitsAux (natDigitsAux fuel n) acc =
      some (acc * 10 ^ (natDigitsAux fuel n).length + n) := by
  intro fuel
  induction fuel with
  | zero => intro n h; omega
  | succ fuel ih =>
    intro n h acc
    rw [natDigitsAux]
    by_cases h10 : n < 10
    · rw [if_pos h10, parseDigitsAux, digit?_ofNat n h10]
      dsimp only
      rw [parseDigitsAux]
      simp
    · rw [if_neg h10]
      have hrec : n / 10 < fuel := by omega
      rw [parseDigitsAux_append, ih (n / 10) hrec acc, digit?_ofNat (n % 10) (by omega)]
      dsimp only [Option.bind, Option.map]
      simp only [List.length_append, List.length_cons, List.length_nil]
      congr 1
      calc (acc * 10 ^ (natDigitsAux fuel (n / 10)).length + n / 10) * 10 + n % 10
          = acc * (10 ^ (natDigitsAux fuel (n / 10)).length * 10) +
              (n / 10 * 10 + n % 10) := by ring
        _ = acc * 10 ^ ((natDigitsAux fuel (n / 10)).length + 1) + n := by
            rw [pow_succ]
            congr 1
            omega

theorem digitChar_bound (k : Nat) (h : k < 10) :
    48 ≤ (Char.ofNat (48 + k)).toNat ∧ (Char.ofNat (48 + k)).toNat ≤ 57 := by
  interval_cases k <;> exact (by decide)

theorem natDigitsAux_ne_nil : ∀ (fuel n : Nat), 0 < fuel → natDigitsAux fuel n ≠ [] := by
  intro fuel n h
  cases fuel with
  | zero => omega
  | succ fuel =>
    rw [natDigitsAux]
    by_cases h10 : n < 10
    · rw [if_pos h10]; simp
    · rw [if_neg h10]; simp

theorem natDigitsAux_mem : ∀ (fuel n : Nat), ∀ c ∈ natDigitsAux fuel n,
    48 ≤ c.toNat ∧ c.toNat ≤ 57 := by
  intro fuel
  induction fuel with
  | zero => intro n c hc; cases hc
  | succ fuel ih =>
    intro n c hc
    rw [natDigitsAux] at hc
    by_cases h10 : n < 10
    · rw [if_pos h10] at hc
      simp only [List.mem_singleton] at hc
      subst hc
      exact digitChar_bound n h10
    · rw [if_neg h10] at hc
      rcases List.mem_append.mp hc with hc | hc
      · exact ih (n / 10) c hc
      · simp only [List.mem_singleton] at hc
        subst hc
        exact digitChar_bound (n % 10) (Nat.mod_lt n (by omega))

theorem natDigits_parse (n : Nat) : parseDigits (natDigits n) = some n := by
  cases hd : natDigits n with
  | nil => exact absurd hd (natDigitsAux_ne_nil (n + 1) n (Nat.succ_pos n))
  | cons c cs =>
    rw [parseDigits, ← hd]
    rw [natDigits, natDigitsAux_parse (n + 1) n (Nat.lt_succ_self n) 0]
    simp

theorem decimalChars_mem (n : ℤ) : ∀ c ∈ decimalChars n,
    45 ≤ c.toNat ∧ c.toNat ≤ 57 := by
  intro c hc
  rw [decimalChars] at hc
  split at hc
  · rcases List.mem_cons.mp hc with hc | hc
    · subst hc; exact (by decide)
    · have := natDigitsAux_mem (n.natAbs + 1) n.natAbs c hc
      omega
  · have := natDigitsAux_mem (n.toNat + 1) n.toNat c hc
    omega

theorem not_ws_of_digitish (c : Char) (h1 : 45 ≤ c.toNat) (h2 : c.toNat ≤ 57) :
    isRustWhitespace c = false := by
  rw [isRustWhitespace]
  simp only [Bool.or_eq_false_iff, beq_eq_false_iff_ne, ne_eq, Bool.and_eq_false_iff,
    decide_eq_false_iff_not, not_le]
  omega

theorem ascii_ne_13 (c : Char) (h1 : 45 ≤ c.toNat) (h2 : c.toNat ≤ 57) :
    UInt8.ofNat c.toNat ≠ 13 := by
  intro heq
  have := congrArg UInt8.toNat heq
  rw [UInt8_toNat_ofNat_small c.toNat (by omega)] at this
  rw [show (13 : UInt8).toNat = 13 from rfl] at this
  omega

theorem utf8DecodeF_ascii : ∀ (cs : List Char) (fuel : Nat), cs.length ≤ fuel →
    (∀ c ∈ cs, c.toNat < 128) → utf8DecodeF fuel (asciiOf cs) = some cs := by
  intro cs
  induction cs with
  | nil =>
    intro fuel _ _
    cases fuel with
    | zero => rfl
    | succ fuel => rfl
  | cons c cs ih =>
    intro fuel hfuel h
    cases fuel with
    | zero => simp at hfuel
    | succ fuel =>
      have hstep : asciiOf (c :: cs) = UInt8.ofNat c.toNat :: asciiOf cs := rfl
      rw [hstep, utf8DecodeF.eq_def]
      dsimp only
      rw [if_pos (ofNat_lt_0x80 c.toNat (h c (List.mem_cons_self c cs)))]
      rw [ih fuel (by simp at hfuel; omega) (fun x hx => h x (List.mem_cons_of_mem c hx))]
      rw [Option.map_some']
      rw [UInt8_toNat_ofNat_small c.toNat (by have := h c (List.mem_cons_self c cs); omega)]
      rw [Char.ofNat_toNat]

theorem utf8_ascii : ∀ cs : List Char, (∀ c ∈ cs, c.toNat < 128) →
    utf8Decode? (asciiOf cs) = some cs := by
  intro cs h
  rw [utf8Decode?]
  exact utf8DecodeF_ascii cs (asciiOf cs).length (by simp [asciiOf]) h

theorem asciiOf_length (cs : List Char) : (asciiOf cs).length = cs.length :=
  List.length_map cs _

theorem line_ascii (cs : List Char) (rest : List UInt8)
    (hlt : ∀ c ∈ cs, c.toNat < 128) (h13 : ∀ c ∈ cs, c.toNat ≠ 13) :
    line (asciiOf cs ++ 13 :: 10 :: rest) = PRes.ok (String.mk cs) (cs.length + 2) := by
  have hf : findCRLF (asciiOf cs) = none := by
    apply findCRLF_none_of_no13
    intro x hx
    rcases List.mem_map.mp hx with ⟨c, hc, rfl⟩
    intro heq
    have := congrArg UInt8.toNat heq
    rw [UInt8_toNat_ofNat_small c.toNat (by have := hlt c hc; omega)] at this
    rw [show (13 : UInt8).toNat = 13 from rfl] at this
    exact h13 c hc this
  rw [line, findCRLF_none_append_crlf _ _ hf]
  dsimp only
  rw [List.take_append_of_le_length (le_refl (asciiOf cs).length),
    List.take_length, utf8_ascii cs hlt]
  rw [asciiOf_length]

theorem dropWhile_eq_self_of (p : Char → Bool) (l : List Char)
    (h : ∀ c ∈ l, p c = false) : List.dropWhile p l = l := by
  cases l with
  | nil => rfl
  | cons x xs =>
    rw [List.dropWhile_cons]
    simp [h x (List.mem_cons_self x xs)]

theorem trimChars_id (cs : List Char) (h : ∀ c ∈ cs, isRustWhitespace c = false) :
    trimChars cs = cs := by
  rw [trimChars, dropWhile_eq_self_of _ _ h,
    dropWhile_eq_self_of _ _ (fun c hc => h c (List.mem_reverse.mp hc)),
    List.reverse_reverse]

theorem parseI64_decimal (n : ℤ) (h1 : -(2 ^ 63) ≤ n) (h2 : n < 2 ^ 63) :
    parseI64 (decimalChars n) = some n := by
  by_cases hn : n < 0
  · rw [decimalChars, if_pos hn, parseI64, if_neg (by decide), if_pos rfl,
      natDigits_parse n.natAbs]
    dsimp only [Option.bind]
    rw [if_pos (by omega : n.natAbs ≤ 2 ^ 63)]
    congr 1
    omega
  · rw [decimalChars, if_neg hn]
    cases hd : natDigits n.toNat with
    | nil => exact absurd hd (natDigitsAux_ne_nil (n.toNat + 1) n.toNat (Nat.succ_pos _))
    | cons c cs =>
      have hcb : 48 ≤ c.toNat ∧ c.toNat ≤ 57 :=
        natDigitsAux_mem (n.toNat + 1) n.toNat c (by rw [show natDigitsAux (n.toNat + 1) n.toNat = natDigits n.toNat from rfl, hd]; exact List.mem_cons_self c cs)
    
      have hplus : ¬ c = '+' := by
        intro he
        have := congrArg Char.toNat he
        rw [show ('+' : Char).toNat = 43 from rfl] at this
        omega
      have hminus : ¬ c = '-' := by
        intro he
        have := congrArg Char.toNat he
        rw [show ('-' : Char).toNat = 45 from rfl] at this
        omega
      have hp : parseDigits (c :: cs) = some n.toNat := by
        rw [← hd]
        exact natDigits_parse n.toNat
      rw [parseI64, if_neg hplus, if_neg hminus, hp]
      dsimp only [Option.bind]
      rw [if_pos (by omega : n.toNat ≤ 2 ^ 63 - 1)]
      congr 1
      omega

theorem int_decimal (n : ℤ) (h1 : -(2 ^ 63) ≤ n) (h2 : n < 2 ^ 63) (rest : List UInt8) :
    int (asciiOf (decimalChars n) ++ 13 :: 10 :: rest) =
      PRes.ok n ((decimalChars n).length + 2) := by
  have hmem := decimalChars_mem n
  have h128 : ∀ c ∈ decimalChars n, c.toNat < 128 := by
    intro c hc; have := hmem c hc; omega
  have h13 : ∀ c ∈ decimalChars n, c.toNat ≠ 13 := by
    intro c hc; have := hmem c hc; omega
  rw [int, line_ascii _ rest h128 h13]
  dsimp only
  rw [trimChars_id _ (fun c hc => not_ws_of_digitish c (hmem c hc).1 (hmem c hc).2)]
  rw [parseI64_decimal n h1 h2]

theorem encodeDataFrame_eq (b : List UInt8) :
    encodeDataFrame b =
      36 :: (asciiOf (natDigits b.length) ++ 13 :: 10 :: (b ++ [13, 10])) := by
  rw [encodeDataFrame]
  simp [List.append_assoc]

theorem decimalChars_natCast (m : Nat) : decimalChars (m : ℤ) = natDigits m := by
  rw [decimalChars, if_neg (by omega), Int.toNat_natCast]

theorem data_encode (b : List UInt8) (hlen : (b.length : ℤ) < 2 ^ 63) :
    data (asciiOf (natDigits b.length) ++ 13 :: 10 :: (b ++ [13, 10])) =
      PRes.ok (Value.Data b) ((natDigits b.length).length + 2 + b.length + 2) := by
  have hint := int_decimal (b.length : ℤ) (by omega) hlen (b ++ [13, 10])
  rw [decimalChars_natCast] at hint
  rw [data, hint]
  dsimp only
  rw [if_neg (by omega : ¬ (b.length : ℤ) < 0)]
  have hdrop : (asciiOf (natDigits b.length) ++ 13 :: 10 :: (b ++ [13, 10])).drop
      ((natDigits b.length).length + 2) = b ++ [13, 10] := by
    rw [show asciiOf (natDigits b.length) ++ 13 :: 10 :: (b ++ [13, 10]) =
      (asciiOf (natDigits b.length) ++ [13, 10]) ++ (b ++ [13, 10]) by simp]
    apply List.drop_left'
    simp [asciiOf]
  rw [hdrop, Int.toNat_natCast]
  have hlen2 : (b ++ [13, 10]).length = b.length + 2 := by simp
  rw [hlen2, if_neg (by omega : ¬ b.length + 2 < b.length)]
  rw [List.drop_left b [13, 10]]
  dsimp only
  rw [if_pos ⟨rfl, rfl⟩, List.take_left b [13, 10]]

theorem value_encodeDataFrame (b : List UInt8) (hlen : (b.length : ℤ) < 2 ^ 63) :
    value (encodeDataFrame b) =
      PRes.ok (RResult.ok (Value.Data b)) (encodeDataFrame b).length := by
  have hl : (encodeDataFrame b).length =
      (natDigits b.length).length + 2 + b.length + 2 + 1 := by
    rw [encodeDataFrame_eq]
    simp [asciiOf]
    omega
  rw [hl, encodeDataFrame_eq, value_dollar, data_encode b hlen]

theorem value_encodeIntFrame (n : ℤ) (h1 : -(2 ^ 63) ≤ n) (h2 : n < 2 ^ 63) :
    value (encodeIntFrame n) =
      PRes.ok (RResult.ok (Value.Int n)) (encodeIntFrame n).length := by
  have hl : (encodeIntFrame n).length = (decimalChars n).length + 2 + 1 := by
    rw [encodeIntFrame]
    simp [asciiOf]
  rw [hl, encodeIntFrame, value_colon, int_decimal n h1 h2 []]

/-- Shape of a successful bulk-data decode with a non-negative declared
length: the payload is exactly the declared number of bytes taken verbatim
after the length line, and the two terminator bytes are consumed but not
included. -/
theorem data_ok_shape (input : List UInt8) (c : ℤ) (n : Nat) (v : Value) (m : Nat)
    (hint : int input = PRes.ok c n) (hc : ¬ c < 0) (hd : data input = PRes.ok v m) :
    v = Value.Data ((input.drop n).take c.toNat) ∧ m = n + c.toNat + 2 := by
  rw [data, hint] at hd
  dsimp only at hd
  rw [if_neg hc] at hd
  by_cases hl : (input.drop n).length < c.toNat
  · rw [if_pos hl] at hd; cases hd
  · rw [if_neg hl] at hd
    cases hrest : (input.drop n).drop c.toNat with
    | nil => rw [hrest] at hd; cases hd
    | cons b1 t1 =>
      rw [hrest] at hd
      cases t1 with
      | nil =>
        dsimp only at hd
        by_cases hb : b1 = 13
        · rw [if_pos hb] at hd; cases hd
        · rw [if_neg hb] at hd; cases hd
      | cons b2 t2 =>
        dsimp only at hd
        by_cases hcr : b1 = 13 ∧ b2 = 10
        · rw [if_pos hcr] at hd
          injection hd with h1 h2
          exact ⟨h1.symm, h2.symm⟩
        · rw [if_neg hcr] at hd; cases hd

/-- The negative-length branch of the bulk-data rule yields `Nil` and
consumes nothing beyond the length line. -/
theorem data_neg_nil (input : List UInt8) (c : ℤ) (n : Nat)
    (hint : int input = PRes.ok c n) (hc : c < 0) : data input = PRes.ok Value.Nil n := by
  rw [data, hint]
  dsimp only
  rw [if_pos hc]

/-- The negative-count branch of the aggregate rule yields `Nil`. -/
theorem star_neg_nil (rest : List UInt8) (c : ℤ) (n : Nat)
    (hint : int rest = PRes.ok c n) (hc : c < 0) :
    value (42 :: rest) = PRes.ok (RResult.ok Value.Nil) (n + 1) := by
  rw [value_star, hint]
  dsimp only
  rw [if_pos hc]

/-- Assembly of a successful aggregate: the collected elements become a
`Bulk` value. -/
theorem star_ok_bulk (rest : List UInt8) (c : ℤ) (n : Nat) (vs : List Value) (n2 : Nat)
    (hint : int rest = PRes.ok c n) (hc : ¬ c < 0)
    (hb : bulkElems c.toNat (rest.drop n) = PRes.ok (RResult.ok vs) n2) :
    value (42 :: rest) = PRes.ok (RResult.ok (Value.Bulk vs)) (n + 1 + n2) := by
  rw [value_star, hint]
  dsimp only
  rw [if_neg hc, hb]

/-- Assembly of an aggregate whose element loop stopped on a protocol error:
that error is the aggregate's whole result. -/
theorem star_err (rest : List UInt8) (c : ℤ) (n : Nat) (e : RedisError) (n2 : Nat)
    (hint : int rest = PRes.ok c n) (hc : ¬ c < 0)
    (hb : bulkElems c.toNat (rest.drop n) = PRes.ok (RResult.err e) n2) :
    value (42 :: rest) = PRes.ok (RResult.err e) (n + 1 + n2) := by
  rw [value_star, hint]
  dsimp only
  rw [if_neg hc, hb]

/-- A successful aggregate with a non-negative declared count is always a
`Bulk` value, never `Nil`. -/
theorem star_nonneg_bulk (rest : List UInt8) (c : ℤ) (n : Nat) (v : Value) (m : Nat)
    (hint : int rest = PRes.ok c n) (hc : ¬ c < 0)
    (h : value (42 :: rest) = PRes.ok (RResult.ok v) m) : ∃ vs, v = Value.Bulk vs := by
  rw [value_star, hint] at h
  dsimp only at h
  rw [if_neg hc] at h
  cases hb : bulkElems c.toNat (rest.drop n) with
  | needMore => rw [hb] at h; cases h
  | fail m0 => rw [hb] at h; cases h
  | ok rr n2 =>
    rw [hb] at h
    cases rr with
    | err e =>
      dsimp only at h
      injection h with h1 h2
      cases h1
    | ok vs =>
      dsimp only at h
      injection h with h1 h2
      injection h1 with h1
      exact ⟨vs, h1.symm⟩

/-- The status rule maps the decoded line through the OK collapse. -/
theorem status_eq (input : List UInt8) (s : String) (n : Nat)
    (h : line input = PRes.ok s n) :
    status input = PRes.ok (if s = "OK" then Value.Okay else Value.Status s) n := by
  rw [status, h]

/-- The garbage branch of the integer rule carries the fixed message. -/
theorem int_garbage (input : List UInt8) (s : String) (n : Nat)
    (h : line input = PRes.ok s n) (hp : parseI64 (trimChars s.data) = none) :
    int input = PRes.fail "Expected integer, got garbage" := by
  rw [int, h]
  dsimp only
  rw [hp]

/-- The line rule terminates at the first CRLF: if the text bytes contain no
CRLF pair, the line is exactly those bytes, decoded, and the two terminator
bytes are consumed but excluded. -/
theorem line_first_crlf (a b : List UInt8) (cs : List Char)
    (hf : findCRLF a = none) (hu : utf8Decode? a = some cs) :
    line (a ++ 13 :: 10 :: b) = PRes.ok (String.mk cs) (a.length + 2) := by
  rw [line, findCRLF_none_append_crlf a b hf]
  dsimp only
  rw [List.take_left, hu]

/-! The claims. -/

/-- C1: for every well-formed encoded frame and every split point, pushing
the two halves through two successive push-mode decode calls, carrying the
continuation state between them, yields the same final decode outcome and
the same total consumed-byte count as pushing the whole frame in one
call. -/
theorem claim_C1 (f : List UInt8) (r : RResult Value)
    (hwf : value f = PRes.ok r f.length) (i : Nat) (hi : i ≤ f.length) :
    finalOut (ValueCodec.decode ⟨[]⟩ (f.take i))
        ((ValueCodec.decode ⟨[]⟩ (f.take i)).next.decode (f.drop i)) =
      (ValueCodec.decode ⟨[]⟩ f).output ∧
    (ValueCodec.decode ⟨[]⟩ (f.take i)).consumed +
        ((ValueCodec.decode ⟨[]⟩ (f.take i)).next.decode (f.drop i)).consumed =
      (ValueCodec.decode ⟨[]⟩ f).consumed :=
  codec_split_resume f r hwf i hi

/-- Counterexample to C2 as stated: in the aggregate frame
`"*2\r\n-ERR boom\r\n:1\r\n"` the first of the two declared elements
decodes to a protocol error, yet the error is not propagated as the
aggregate's result: the pull-driven collection stops one element short of
the declared minimum, so the whole decode fails the parse with the
combinator's expected-more-elements message — in particular it is not the
propagated-error outcome the claim predicts (the error after the four
header bytes and the eleven error-element bytes). -/
theorem claim_C2_counterexample :
    value [42, 50, 13, 10, 45, 69, 82, 82, 32, 98, 111, 111, 109, 13, 10, 58, 49, 13, 10] =
      PRes.fail "expected 1 more elements" ∧
    (PRes.fail "expected 1 more elements" : PRes (RResult Value)) ≠
      PRes.ok (RResult.err (RedisError.known ErrorKind.ResponseError
        "An error was signalled by the server" (some "boom"))) 15 := by
  constructor
  · have hi : int [50, 13, 10, 45, 69, 82, 82, 32, 98, 111, 111, 109, 13, 10, 58, 49, 13, 10] =
        PRes.ok 2 3 := by decide
    rw [value_star, hi]
    dsimp only
    rw [if_neg (by decide : ¬ (2 : ℤ) < 0)]
    have hv : value [45, 69, 82, 82, 32, 98, 111, 111, 109, 13, 10, 58, 49, 13, 10] =
        PRes.ok (RResult.err (RedisError.known ErrorKind.ResponseError
          "An error was signalled by the server" (some "boom"))) 11 := by
      rw [value_minus]
      rfl
    have hb : bulkElems (Int.toNat 2) (List.drop 3
        [50, 13, 10, 45, 69, 82, 82, 32, 98, 111, 111, 109, 13, 10, 58, 49, 13, 10]) =
        PRes.fail "expected 1 more elements" := by
      show bulkElems 2 [45, 69, 82, 82, 32, 98, 111, 111, 109, 13, 10, 58, 49, 13, 10] = _
      exact bulkElems_err_notlast _ _ 11 1 (by decide) hv
    rw [hb]
  · intro h
    exact PRes.noConfusion h

/-- C2 (amended): in the aggregate rule, a negative declared count yields
`Nil`; the first element that decodes to a protocol error stops the element
loop at once, the remaining declared elements never being attempted, but
that error becomes the aggregate's result only when it sits at the last
declared position — with declared elements remaining after it, the
pull-driven collection falls short of the declared minimum and the whole
parse fails with the expected-more-elements message instead of propagating
the error; successful elements are collected head-first in declared order,
a successful aggregate collects exactly the declared number of elements,
and it is assembled as `Bulk`. -/
theorem claim_C2 :
    (∀ (rest : List UInt8) (c : ℤ) (n : Nat), int rest = PRes.ok c n → c < 0 →
      value (42 :: rest) = PRes.ok (RResult.ok Value.Nil) (n + 1)) ∧
    (∀ (j : Nat) (input : List UInt8) (vs : List Value) (n : Nat),
      bulkElems j input = PRes.ok (RResult.ok vs) n →
      ∀ (e : RedisError) (m : Nat), value (input.drop n) = PRes.ok (RResult.err e) m →
      bulkElems (j + 1) input = PRes.ok (RResult.err e) (n + m)) ∧
    (∀ (j : Nat) (input : List UInt8) (vs : List Value) (n : Nat),
      bulkElems j input = PRes.ok (RResult.ok vs) n →
      ∀ (e : RedisError) (m : Nat), value (input.drop n) = PRes.ok (RResult.err e) m →
      ∀ k : Nat, bulkElems (j + (k + 2)) input =
        PRes.fail ("expected " ++ toString (k + 1) ++ " more elements")) ∧
    (∀ (rest : List UInt8) (c : ℤ) (n : Nat) (e : RedisError) (n2 : Nat),
      int rest = PRes.ok c n → ¬ c < 0 →
      bulkElems c.toNat (rest.drop n) = PRes.ok (RResult.err e) n2 →
      value (42 :: rest) = PRes.ok (RResult.err e) (n + 1 + n2)) ∧
    (∀ (input : List UInt8) (v : Value) (m k : Nat) (vs : List Value) (n2 : Nat),
      value input = PRes.ok (RResult.ok v) m →
      bulkElems k (input.drop m) = PRes.ok (RResult.ok vs) n2 →
      bulkElems (k + 1) input = PRes.ok (RResult.ok (v :: vs)) (m + n2)) ∧
    (∀ (k : Nat) (input : List UInt8) (vs : List Value) (n : Nat),
      bulkElems k input = PRes.ok (RResult.ok vs) n → vs.length = k) ∧
    (∀ (rest : List UInt8) (c : ℤ) (n : Nat) (vs : List Value) (n2 : Nat),
      int rest = PRes.ok c n → ¬ c < 0 →
      bulkElems c.toNat (rest.drop n) = PRes.ok (RResult.ok vs) n2 →
      value (42 :: rest) = PRes.ok (RResult.ok (Value.Bulk vs)) (n + 1 + n2) ∧
        vs.length = c.toNat) :=
  ⟨star_neg_nil, bulkElems_prefix_err_last, bulkElems_prefix_err_notlast,
   star_err, bulkElems_ok_cons, bulkElems_length,
   fun rest c n vs n2 h1 h2 h3 =>
     ⟨star_ok_bulk rest c n vs n2 h1 h2 h3, bulkElems_length c.toNat (rest.drop n) vs n2 h3⟩⟩

/-- C3: the error rule splits the decoded line at the first space into a
code token and an optional detail and classifies it exactly per the fixed
case-sensitive ten-entry table, handing any other code token with the
optional detail to the extension-error constructor; in particular the MOVED
redirect frame decodes to the `Moved` kind with its detail verbatim, and an
unrecognized code goes to the extension constructor with the exact code
token and detail. -/
theorem claim_C3 :
    (∀ (input : List UInt8) (s : String) (n : Nat), line input = PRes.ok s n →
      error input = PRes.ok (specErrorClassify s) n) ∧
    value ((45 : UInt8) :: (asciiOf "MOVED 1234 127.0.0.1:7001".data ++ [13, 10])) =
      PRes.ok (RResult.err (RedisError.known ErrorKind.Moved
        "An error was signalled by the server" (some "1234 127.0.0.1:7001"))) 28 ∧
    value ((45 : UInt8) :: (asciiOf "WEIRDCODE custom detail".data ++ [13, 10])) =
      PRes.ok (RResult.err (make_extension_error "WEIRDCODE" (some "custom detail"))) 26 := by
  refine ⟨?_, ?_, ?_⟩
  · intro input s n h
    rw [error_eq, h]
  · rw [value_minus]
    rfl
  · rw [value_minus]
    rfl

/-- C4: a negative declared bulk length always decodes to `Nil`; a
non-negative declared length decodes to a `Data` payload of exactly the
declared bytes taken verbatim with the mandatory CRLF terminator consumed
but excluded; consequently decoding the canonical encoding of `Data b`
yields `Data b` unchanged, consuming the whole frame. -/
theorem claim_C4 :
    (∀ (input : List UInt8) (c : ℤ) (n : Nat), int input = PRes.ok c n → c < 0 →
      data input = PRes.ok Value.Nil n) ∧
    (∀ (input : List UInt8) (c : ℤ) (n : Nat) (v : Value) (m : Nat),
      int input = PRes.ok c n → ¬ c < 0 → data input = PRes.ok v m →
      v = Value.Data ((input.drop n).take c.toNat) ∧ m = n + c.toNat + 2) ∧
    (∀ b : List UInt8, (b.length : ℤ) < 2 ^ 63 →
      value (encodeDataFrame b) =
        PRes.ok (RResult.ok (Value.Data b)) (encodeDataFrame b).length) :=
  ⟨data_neg_nil, data_ok_shape, value_encodeDataFrame⟩

/-- C5: decoding the canonical encoding of any signed 64-bit integer yields
exactly that integer value, consuming the whole frame; and when the trimmed
line text does not parse as a signed 64-bit integer the rule fails with the
fixed message. -/
theorem claim_C5 :
    (∀ n : ℤ, -(2 ^ 63) ≤ n → n < 2 ^ 63 →
      value (encodeIntFrame n) =
        PRes.ok (RResult.ok (Value.Int n)) (encodeIntFrame n).length) ∧
    (∀ (input : List UInt8) (s : String) (n : Nat), line input = PRes.ok s n →
      parseI64 (trimChars s.data) = none →
      int input = PRes.fail "Expected integer, got garbage") :=
  ⟨value_encodeIntFrame, int_garbage⟩

/-- C6: the status rule maps the decoded line text OK to the `Okay`
sentinel and any other text `t` to `Status t`; in particular the OK frame
decodes to `Okay` and the PONG frame to `Status PONG`. -/
theorem claim_C6 :
    (∀ (input : List UInt8) (s : String) (n : Nat), line input = PRes.ok s n →
      status input = PRes.ok (if s = "OK" then Value.Okay else Value.Status s) n) ∧
    value ((43 : UInt8) :: (asciiOf "OK".data ++ [13, 10])) =
      PRes.ok (RResult.ok Value.Okay) 5 ∧
    value ((43 : UInt8) :: (asciiOf "PONG".data ++ [13, 10])) =
      PRes.ok (RResult.ok (Value.Status "PONG")) 7 := by
  refine ⟨status_eq, ?_, ?_⟩
  · rw [value_plus]
    rfl
  · rw [value_plus]
    rfl

/-- C7: dispatch reads exactly one tag byte and selects by exact match among
the five tags; any other first byte makes decoding fail with a
malformed-grammar error rather than producing a value or suspending. -/
theorem claim_C7 (t : UInt8) (rest : List UInt8) (h43 : t ≠ 43) (h58 : t ≠ 58)
    (h36 : t ≠ 36) (h42 : t ≠ 42) (h45 : t ≠ 45) :
    value (t :: rest) = PRes.fail "unrecognized tag byte" :=
  value_other t rest h43 h58 h36 h42 h45

/-- C8: the one-shot entry point returns the decoded value of a well-formed
buffer, and on every proper prefix of a well-formed frame it fails with the
I/O-style unexpected-end failure rather than returning a value. -/
theorem claim_C8 :
    (∀ (bytes : List UInt8) (v : Value) (n : Nat),
      value bytes = PRes.ok (RResult.ok v) n → parse_redis_value bytes = RResult.ok v) ∧
    (∀ (f : List UInt8) (r : RResult Value), value f = PRes.ok r f.length →
      ∀ i : Nat, i < f.length →
      parse_redis_value (f.take i) = RResult.err (RedisError.io "unexpected end of file")) :=
  ⟨parse_redis_value_of_ok, parse_redis_value_take⟩

/-- C9: a declared length or count of exactly zero is distinguished from
`Nil`: the zero-length bulk frame decodes to an empty `Data` payload and the
zero-count aggregate to an empty `Bulk`; with a non-negative declared
length or count the result is never `Nil`. -/
theorem claim_C9 :
    value [36, 48, 13, 10, 13, 10] = PRes.ok (RResult.ok (Value.Data [])) 6 ∧
    value [42, 48, 13, 10] = PRes.ok (RResult.ok (Value.Bulk [])) 4 ∧
    (∀ (input : List UInt8) (c : ℤ) (n : Nat) (v : Value) (m : Nat),
      int input = PRes.ok c n → ¬ c < 0 → data input = PRes.ok v m →
      v ≠ Value.Nil) ∧
    (∀ (rest : List UInt8) (c : ℤ) (n : Nat) (v : Value) (m : Nat),
      int rest = PRes.ok c n → ¬ c < 0 →
      value (42 :: rest) = PRes.ok (RResult.ok v) m → ∃ vs, v = Value.Bulk vs) := by
  refine ⟨?_, ?_, ?_, star_nonneg_bulk⟩
  · rw [value_dollar]
    rfl
  · have h : int [48, 13, 10] = PRes.ok 0 3 := by decide
    have hb : bulkElems (Int.toNat 0) (List.drop 3 [48, 13, 10]) =
        PRes.ok (RResult.ok []) 0 := bulkElems_zero _
    rw [value_star, h]
    dsimp only
    rw [hb]
    rfl
  · intro input c n v m hint hc hd
    rw [(data_ok_shape input c n v m hint hc hd).1]
    intro he
    cases he

/-- C10: the line rule terminates at the first CRLF pair; a lone carriage
return or newline inside the line does not terminate it and stays in the
decoded text, which never includes the two terminator bytes. -/
theorem claim_C10 :
    (∀ (a b : List UInt8) (cs : List Char), findCRLF a = none →
      utf8Decode? a = some cs →
      line (a ++ 13 :: 10 :: b) = PRes.ok (String.mk cs) (a.length + 2)) ∧
    value [43, 97, 13, 98, 13, 10] = PRes.ok (RResult.ok (Value.Status "a\rb")) 6 := by
  refine ⟨?_, ?_⟩
  · intro a b cs hf hu
    exact line_first_crlf a b cs hf hu
  · rw [value_plus]
    rfl

/-! Concrete witnesses instantiating each claim theorem. -/

/-- Witness for C1: splitting the OK status frame after two bytes. -/
theorem claim_C1_witness :
    value [43, 79, 75, 13, 10] =
      PRes.ok (RResult.ok Value.Okay) (List.length ([43, 79, 75, 13, 10] : List UInt8)) ∧
    2 ≤ List.length ([43, 79, 75, 13, 10] : List UInt8) ∧
    (finalOut (ValueCodec.decode ⟨[]⟩ (List.take 2 [43, 79, 75, 13, 10]))
        ((ValueCodec.decode ⟨[]⟩ (List.take 2 [43, 79, 75, 13, 10])).next.decode
          (List.drop 2 [43, 79, 75, 13, 10])) =
      (ValueCodec.decode ⟨[]⟩ [43, 79, 75, 13, 10]).output ∧
    (ValueCodec.decode ⟨[]⟩ (List.take 2 [43, 79, 75, 13, 10])).consumed +
        ((ValueCodec.decode ⟨[]⟩ (List.take 2 [43, 79, 75, 13, 10])).next.decode
          (List.drop 2 [43, 79, 75, 13, 10])).consumed =
      (ValueCodec.decode ⟨[]⟩ [43, 79, 75, 13, 10]).consumed) := by
  have h1 : value [43, 79, 75, 13, 10] =
      PRes.ok (RResult.ok Value.Okay) (List.length ([43, 79, 75, 13, 10] : List UInt8)) := by
    rw [value_plus]
    rfl
  exact ⟨h1, by decide,
    claim_C1 [43, 79, 75, 13, 10] (RResult.ok Value.Okay) h1 2 (by decide)⟩

/-- Witness for C2: one successful element followed by an error element at
the last declared position of a two-element aggregate; the error is the
element loop's result. -/
theorem claim_C2_witness :
    bulkElems 1 [58, 49, 13, 10, 45, 69, 82, 82, 32, 98, 111, 111, 109, 13, 10] =
      PRes.ok (RResult.ok [Value.Int 1]) 4 ∧
    value (List.drop 4 [58, 49, 13, 10, 45, 69, 82, 82, 32, 98, 111, 111, 109, 13, 10]) =
      PRes.ok (RResult.err (RedisError.known ErrorKind.ResponseError
        "An error was signalled by the server" (some "boom"))) 11 ∧
    bulkElems (1 + 1) [58, 49, 13, 10, 45, 69, 82, 82, 32, 98, 111, 111, 109, 13, 10] =
      PRes.ok (RResult.err (RedisError.known ErrorKind.ResponseError
        "An error was signalled by the server" (some "boom"))) (4 + 11) := by
  have hv : value [58, 49, 13, 10, 45, 69, 82, 82, 32, 98, 111, 111, 109, 13, 10] =
      PRes.ok (RResult.ok (Value.Int 1)) 4 := by
    rw [value_colon]
    rfl
  have h1 : bulkElems 1 [58, 49, 13, 10, 45, 69, 82, 82, 32, 98, 111, 111, 109, 13, 10] =
      PRes.ok (RResult.ok [Value.Int 1]) 4 :=
    bulkElems_ok_cons _ (Value.Int 1) 4 0 [] 0 hv (bulkElems_zero _)
  have h2 : value (List.drop 4 [58, 49, 13, 10, 45, 69, 82, 82, 32, 98, 111, 111, 109, 13, 10]) =
      PRes.ok (RResult.err (RedisError.known ErrorKind.ResponseError
        "An error was signalled by the server" (some "boom"))) 11 := by
    show value [45, 69, 82, 82, 32, 98, 111, 111, 109, 13, 10] = _
    rw [value_minus]
    rfl
  exact ⟨h1, h2, claim_C2.2.1 1 _ [Value.Int 1] 4 h1 _ 11 h2⟩

/-- Witness for C3: classifying the line of a generic ERR frame. -/
theorem claim_C3_witness :
    line [69, 82, 82, 32, 120, 13, 10] = PRes.ok "ERR x" 7 ∧
    error [69, 82, 82, 32, 120, 13, 10] = PRes.ok (specErrorClassify "ERR x") 7 :=
  ⟨by decide, claim_C3.1 [69, 82, 82, 32, 120, 13, 10] "ERR x" 7 (by decide)⟩

/-- Witness for C4: round trip of a two-byte payload. -/
theorem claim_C4_witness :
    ((List.length ([104, 105] : List UInt8) : ℤ) < 2 ^ 63) ∧
    value (encodeDataFrame [104, 105]) =
      PRes.ok (RResult.ok (Value.Data [104, 105])) (encodeDataFrame [104, 105]).length :=
  ⟨by decide, claim_C4.2.2 [104, 105] (by decide)⟩

/-- Witness for C5: round trip of the integer negative forty-two. -/
theorem claim_C5_witness :
    (-(2 ^ 63) ≤ (-42 : ℤ)) ∧ ((-42 : ℤ) < 2 ^ 63) ∧
    value (encodeIntFrame (-42)) =
      PRes.ok (RResult.ok (Value.Int (-42))) (encodeIntFrame (-42)).length :=
  ⟨by decide, by decide, claim_C5.1 (-42) (by decide) (by decide)⟩

/-- Witness for C6: the PONG line through the status rule. -/
theorem claim_C6_witness :
    line [80, 79, 78, 71, 13, 10] = PRes.ok "PONG" 6 ∧
    status [80, 79, 78, 71, 13, 10] =
      PRes.ok (if "PONG" = "OK" then Value.Okay else Value.Status "PONG") 6 :=
  ⟨by decide, claim_C6.1 [80, 79, 78, 71, 13, 10] "PONG" 6 (by decide)⟩

/-- Witness for C7: an exclamation mark is not a recognized tag byte. -/
theorem claim_C7_witness :
    ((33 : UInt8) ≠ 43) ∧ ((33 : UInt8) ≠ 58) ∧ ((33 : UInt8) ≠ 36) ∧
    ((33 : UInt8) ≠ 42) ∧ ((33 : UInt8) ≠ 45) ∧
    value [33] = PRes.fail "unrecognized tag byte" :=
  ⟨by decide, by decide, by decide, by decide, by decide,
    claim_C7 33 [] (by decide) (by decide) (by decide) (by decide) (by decide)⟩

/-- Witness for C8: a three-byte proper prefix of the OK frame. -/
theorem claim_C8_witness :
    value [43, 79, 75, 13, 10] =
      PRes.ok (RResult.ok Value.Okay) (List.length ([43, 79, 75, 13, 10] : List UInt8)) ∧
    3 < List.length ([43, 79, 75, 13, 10] : List UInt8) ∧
    parse_redis_value (List.take 3 [43, 79, 75, 13, 10]) =
      RResult.err (RedisError.io "unexpected end of file") := by
  have h1 : value [43, 79, 75, 13, 10] =
      PRes.ok (RResult.ok Value.Okay) (List.length ([43, 79, 75, 13, 10] : List UInt8)) := by
    rw [value_plus]
    rfl
  exact ⟨h1, by decide,
    claim_C8.2 [43, 79, 75, 13, 10] (RResult.ok Value.Okay) h1 3 (by decide)⟩

/-- Witness for C9: a bulk payload of declared length two is a `Data`
value, not `Nil`. -/
theorem claim_C9_witness :
    int [50, 13, 10, 104, 105, 13, 10] = PRes.ok 2 3 ∧
    ¬ (2 : ℤ) < 0 ∧
    data [50, 13, 10, 104, 105, 13, 10] = PRes.ok (Value.Data [104, 105]) 7 ∧
    Value.Data [104, 105] ≠ Value.Nil := by
  have h3 : data [50, 13, 10, 104, 105, 13, 10] = PRes.ok (Value.Data [104, 105]) 7 := rfl
  exact ⟨by decide, by decide, h3,
    claim_C9.2.2.1 [50, 13, 10, 104, 105, 13, 10] 2 3 (Value.Data [104, 105]) 7
      (by decide) (by decide) h3⟩

/-- Witness for C10: a line containing a lone carriage return. -/
theorem claim_C10_witness :
    findCRLF [97, 13, 98] = none ∧
    utf8Decode? [97, 13, 98] = some ['a', '\r', 'b'] ∧
    line ([97, 13, 98] ++ 13 :: 10 :: []) =
      PRes.ok (String.mk ['a', '\r', 'b'])
        (List.length ([97, 13, 98] : List UInt8) + 2) :=
  ⟨by decide, by decide,
    claim_C10.1 [97, 13, 98] [] ['a', '\r', 'b']
      (by decide) (by decide)⟩

end Redis
